import Mathlib

set_option maxHeartbeats 1000000

/-!
Verification of the glow `FunctionConverter` type-legalization pass
(`include/glow/Converter/FunctionConverter.h`).

The repository ships only the header: the class declaration, the contracts of
the extensibility hooks, and the high-level algorithm of `convert()` given in
its doc comment (lines 152-162).  The body of `convert()` and of the default
hooks is not part of the sources, so the pass itself is modelled from the
specification (spec.md paragraph 4.1, "Algorithm (single pass,
snapshot-then-mutate)") and from the header's doc comments; every definition
that fills such a gap carries a `Modelled from the spec:` note.

The graph substrate (Function / Node / NodeValue, spec paragraph 6) is
embedded shallowly: a function is an ordered list of nodes, a node has a
stable identity, a list of typed input edges and a list of output slot types,
and a value reference is a (producing node, result index) pair.  Type
descriptors are value-comparable opaque data (spec paragraph 3), embedded as
naturals; the "absent" sentinel (`nullptr` of `TypeRef`) is `Option.none`.
-/

namespace Glow

/-- Type descriptor (external, immutable, value-comparable; spec paragraph 3).
Structural equality is all the pass uses, so an opaque `Nat` code suffices. -/
abbrev Ty := Nat

/-- Stable node identity (spec paragraph 3: "Node identity is stable across
the pass"). -/
abbrev NodeId := Nat

/-- Pair representing the destination and source type of a conversion
(`DstTySrcTy` in the header, line 35). -/
abbrev DstTySrcTy := Ty × Ty

/-- A value reference: the pair (producing node, output slot index)
(`NodeValue`; spec paragraph 3). -/
structure NodeValue where
  node : NodeId
  resNo : Nat
deriving DecidableEq, Repr

/-- A graph node: stable identity, typed input edges (each referencing another
node's output slot) and one type per output slot (spec paragraph 3). -/
structure Node where
  id : NodeId
  inputs : List NodeValue
  outTypes : List Ty
deriving DecidableEq, Repr

/-- The function being converted (`function_` member, header line 43): an
ordered collection of nodes owning them, plus a fresh-identity counter so that
inserted conversion nodes get identities distinct from every existing node
(spec paragraph 6: stable node ordering, insertion at arbitrary positions). -/
structure Function where
  nodes : List Node
  nextId : NodeId
deriving DecidableEq, Repr

/-- Look a node up by identity in an ordered node list. -/
def lookupN : List Node → NodeId → Option Node
  | [], _ => none
  | n :: ns, x => if n.id = x then some n else lookupN ns x

/-- Fetch the node with identity `x` from `f`. -/
def getNode (f : Function) (x : NodeId) : Option Node :=
  lookupN f.nodes x

/-- Current type of the value `v`: the type of output slot `v.resNo` of its
producing node. -/
def typeOf (f : Function) (v : NodeValue) : Option Ty :=
  (getNode f v.node).bind fun n => n.outTypes[v.resNo]?

/-- The value referenced by input slot `j` of node `x`. -/
def inputOf (f : Function) (x : NodeId) (j : Nat) : Option NodeValue :=
  (getNode f x).bind fun n => n.inputs[j]?

/-- Current type of the value referenced by input slot `j` of node `x`. -/
def inTypeOf (f : Function) (x : NodeId) (j : Nat) : Option Ty :=
  (inputOf f x j).bind (typeOf f)

/-- Current type of output slot `o` of node `x`. -/
def outTypeOf (f : Function) (x : NodeId) (o : Nat) : Option Ty :=
  (getNode f x).bind fun n => n.outTypes[o]?

/-- The policy hooks of the `FunctionConverter` class (header lines 40-137).
Virtual dispatch on the derived class becomes a record of functions (spec
paragraph 9: "represent as a policy object ... injected at construction").

Modelled from the spec: the hooks receive the stable identity of the node (or
value) they are asked about together with the current type of the related
value, which is exactly the data the C++ hooks read from their `Node&` /
`NodeValue&` arguments; returning `none` is returning `nullptr` ("absent").
`createConversionOk` models the mandatory `createConversion` factory (header
line 109): the constructed node always has the shape `mkConversion` below
(one designated source value, one designated destination type, spec paragraph
3 "Conversion node"), and the boolean records whether construction succeeds
at all, failure being the hard-error channel of spec paragraph 7. -/
structure FunctionConverter where
  getTargetTypeForOutput : NodeValue → Ty → Option Ty
  getTargetTypeForInput : NodeId → Nat → Ty → Option Ty
  canConvert : NodeId → Bool
  createConversionOk : NodeValue → Ty → Bool

/-- Modelled from the spec: the node built by `createConversion` for source
value `val` and destination type `destTy` - exactly one designated source
(operand 0) and one result carrying the destination type (result 0), the
shape consumed by the default `getConversionType` / `getConversionOutput`
hooks (header lines 97-115). -/
def mkConversion (cid : NodeId) (val : NodeValue) (destTy : Ty) : Node :=
  Node.mk cid [val] [destTy]

/-- Default `getConversionType` hook (header lines 97-101): the pair of the
zero-th result's type and the zero-th input's type; `none` when either access
would be out of bounds. -/
def getConversionType (f : Function) (conversion : Node) : Option DstTySrcTy :=
  match conversion.outTypes[0]?, (conversion.inputs[0]?).bind (typeOf f) with
  | some dstTy, some srcTy => some (dstTy, srcTy)
  | _, _ => none

/-- Default `getConversionOutput` hook (header lines 111-115): the zero-th
result; `none` when the conversion defines no result. -/
def getConversionOutput (conversion : Node) : Option NodeValue :=
  (conversion.outTypes[0]?).map fun _ => NodeValue.mk conversion.id 0

/-- Default `morphNode` hook (header lines 117-131): the identity - the node
is returned unchanged. -/
def morphNode (node : Node) : Node := node

/-- Default `postProcessing` hook (header line 134): a no-op. -/
def postProcessing (_node : Node) : Unit := ()

/-- `cleanUp` hook, a no-op (its body is in the header, line 137). -/
def cleanUp : Unit := ()

/-- Apply `u` to the node with identity `x` (in-place mutation of a node, spec
paragraph 6: "in-place mutation of a node's output type", "rewiring an input
edge"; identity is preserved by every use). -/
def updateNode (f : Function) (x : NodeId) (u : Node → Node) : Function :=
  Function.mk (f.nodes.map fun n => if n.id = x then u n else n) f.nextId

/-- Rewire input slot `j` of node `x` to reference `v`. -/
def setInput (f : Function) (x : NodeId) (j : Nat) (v : NodeValue) : Function :=
  updateNode f x fun n => Node.mk n.id (n.inputs.set j v) n.outTypes

/-- Insert node `c` immediately before the node with identity `target`
(appending at the end when `target` is absent, which the pass never relies
on). -/
def insertBeforeList (target : NodeId) (c : Node) : List Node → List Node
  | [] => [c]
  | m :: ms => if m.id = target then c :: m :: ms else m :: insertBeforeList target c ms

/-- Insert node `c` immediately after the node with identity `target`
(appending at the end when `target` is absent, which the pass never relies
on). -/
def insertAfterList (target : NodeId) (c : Node) : List Node → List Node
  | [] => [c]
  | m :: ms => if m.id = target then m :: c :: ms else m :: insertAfterList target c ms

/-- Mutate the type of output slot `o` of node `x` in place (spec paragraph
4.1 step 2c(ii)). -/
def setOutType (f : Function) (x : NodeId) (o : Nat) (ty : Ty) : Function :=
  updateNode f x fun n => Node.mk n.id n.inputs (n.outTypes.set o ty)

/-- Insert node `c` immediately before the node with identity `t`, consuming
one fresh identity. -/
def insertNodeBefore (f : Function) (t : NodeId) (c : Node) : Function :=
  Function.mk (insertBeforeList t c f.nodes) (f.nextId + 1)

/-- Insert node `c` immediately after the node with identity `t`, consuming
one fresh identity. -/
def insertNodeAfter (f : Function) (t : NodeId) (c : Node) : Function :=
  Function.mk (insertAfterList t c f.nodes) (f.nextId + 1)

/-- The current consumers of value `v`: identities of every node with an input
edge referencing `v` (spec paragraph 4.1 step 2c(i): "capture the current set
of consumers"). -/
def usersOf (f : Function) (v : NodeValue) : List NodeId :=
  (f.nodes.filter fun n => decide (v ∈ n.inputs)).map Node.id

/-- Redirect the captured consumers `us`: in every node whose identity is
listed, replace each input edge referencing `old` by `new` (spec paragraph
4.1 step 2c(iv): "redirect every consumer captured in step (i)"). -/
def redirectListed (f : Function) (us : List NodeId) (old new : NodeValue) : Function :=
  Function.mk
    (f.nodes.map fun n =>
      if n.id ∈ us then
        Node.mk n.id (n.inputs.map fun w => if w = old then new else w) n.outTypes
      else n)
    f.nextId


/-- Does the conversion node with identity `c` convert source value `v` to
destination type `destTy`?  The source value is its designated operand 0 and
the destination type is read back exactly as the default `getConversionType`
reads it, from result 0 (spec paragraph 4.1 step 2b: "an existing conversion
node whose source value and destination type match exactly"). -/
def isCachedConv (f : Function) (v : NodeValue) (destTy : Ty) (c : NodeId) : Bool :=
  match lookupN f.nodes c with
  | some cn => decide (cn.inputs[0]? = some v ∧ cn.outTypes[0]? = some destTy)
  | none => false

/-- Look the conversion cache up for an existing conversion of `v` to
`destTy` (spec paragraph 4.1 step 2b; paragraph 3 "Conversion cache"). -/
def findInCache (f : Function) (cache : List NodeId) (v : NodeValue) (destTy : Ty) : Option NodeId :=
  cache.find? (isCachedConv f v destTy)

/-- Designated source value of the conversion node with identity `c` (operand
0, as the default `getConversionType` reads it). -/
def convSrc (f : Function) (c : NodeId) : Option NodeValue :=
  (lookupN f.nodes c).bind fun n => n.inputs[0]?

/-- Destination type of the conversion node with identity `c` (type of result
0, as the default `getConversionType` reads it). -/
def convDst (f : Function) (c : NodeId) : Option Ty :=
  (lookupN f.nodes c).bind fun n => n.outTypes[0]?

/-- The mutable state of one `convert()` invocation: the function being
rewritten, the `conversions_` member (header lines 44-45: "The list of all
the conversions inserted during ::convert", append-only, in insertion order)
and the trace of nodes on which the `morphNode` / `postProcessing` hooks have
been invoked (spec paragraph 4.1 steps 2d-2e). -/
structure ConvState where
  fn : Function
  conversions_ : List NodeId
  morphed : List NodeId
deriving DecidableEq, Repr

/-- Modelled from the spec: the input-conversion step for input slot `idx` of
node `nid` (spec paragraph 4.1 step 2b, header lines 72-94).  Compute the
target type; when present and different from the current type of the
referenced value, reuse a cached conversion of that value to that type or
create one, insert it immediately before `nid`, append it to the cache, and
rewire the slot to the conversion's output (result 0, the default
`getConversionOutput`).  A failing `createConversion` aborts the pass (spec
paragraph 7), surfacing the partially converted state as the error value. -/
def convertInput (P : FunctionConverter) (nid : NodeId) (idx : Nat) (s : ConvState) :
    Except ConvState ConvState :=
  match getNode s.fn nid with
  | none => .ok s
  | some n =>
    match n.inputs[idx]? with
    | none => .ok s
    | some v =>
      match typeOf s.fn v with
      | none => .ok s
      | some curTy =>
        match P.getTargetTypeForInput nid idx curTy with
        | none => .ok s
        | some destTy =>
          if destTy = curTy then .ok s
          else
            match findInCache s.fn s.conversions_ v destTy with
            | some c =>
              .ok (ConvState.mk (setInput s.fn nid idx (NodeValue.mk c 0))
                s.conversions_ s.morphed)
            | none =>
              if P.createConversionOk v destTy then
                let cid := s.fn.nextId
                let cNode := mkConversion cid v destTy
                let f1 := insertNodeBefore s.fn nid cNode
                .ok (ConvState.mk (setInput f1 nid idx (NodeValue.mk cid 0))
                  (s.conversions_ ++ [cid]) s.morphed)
              else .error s

/-- Modelled from the spec: the output-conversion step for output slot `o` of
node `nid` (spec paragraph 4.1 step 2c, header lines 47-70).  Compute the
target type; when present and different from the current type: capture the
current consumers, mutate the slot's type in place, create (or reuse, via the
same cache lookup) a conversion from the now-retyped value back to the
original type, insert it immediately after `nid`, and redirect every captured
consumer to the conversion's output.  A failing `createConversion` aborts the
pass with the type already mutated (no rollback, spec paragraph 5). -/
def convertOutput (P : FunctionConverter) (nid : NodeId) (o : Nat) (s : ConvState) :
    Except ConvState ConvState :=
  match getNode s.fn nid with
  | none => .ok s
  | some n =>
    match n.outTypes[o]? with
    | none => .ok s
    | some curTy =>
      match P.getTargetTypeForOutput (NodeValue.mk nid o) curTy with
      | none => .ok s
      | some destTy =>
        if destTy = curTy then .ok s
        else
          let v := NodeValue.mk nid o
          let us := usersOf s.fn v
          let f1 := setOutType s.fn nid o destTy
          match findInCache f1 s.conversions_ v curTy with
          | some c =>
            .ok (ConvState.mk (redirectListed f1 us v (NodeValue.mk c 0))
              s.conversions_ s.morphed)
          | none =>
            if P.createConversionOk v curTy then
              let cid := f1.nextId
              let cNode := mkConversion cid v curTy
              let f2 := insertNodeAfter f1 nid cNode
              .ok (ConvState.mk (redirectListed f2 us v (NodeValue.mk cid 0))
                (s.conversions_ ++ [cid]) s.morphed)
            else .error (ConvState.mk f1 s.conversions_ s.morphed)

/-- The state produced by the create branch of `convertOutput` on slot `o` of
node `nid` whose type is mutated from `curTy` to `destTy`: type mutated in
place, conversion back to `curTy` inserted immediately after `nid`, every
captured consumer redirected to its output, and the conversion appended to
the cache. -/
def outputCreateState (s : ConvState) (nid : NodeId) (o : Nat) (curTy destTy : Ty) :
    ConvState :=
  ConvState.mk
    (redirectListed
      (insertNodeAfter (setOutType s.fn nid o destTy) nid
        (mkConversion s.fn.nextId (NodeValue.mk nid o) curTy))
      (usersOf s.fn (NodeValue.mk nid o)) (NodeValue.mk nid o)
      (NodeValue.mk s.fn.nextId 0))
    (s.conversions_ ++ [s.fn.nextId]) s.morphed

/-- Chain a list of fallible steps, propagating the first failure unchanged
(the pass either completes or fails outright, spec paragraph 5). -/
def runSteps (step : Nat → ConvState → Except ConvState ConvState) :
    List Nat → ConvState → Except ConvState ConvState
  | [], s => .ok s
  | i :: rest, s =>
    match step i s with
    | .error e => .error e
    | .ok s1 => runSteps step rest s1

/-- Modelled from the spec: processing of one snapshot node (spec paragraph
4.1 step 2; header lines 154-160).  An ineligible node is skipped entirely
(step 2a); otherwise the input-conversion step runs on every input slot, the
output-conversion step on every output slot, and finally `morphNode` (default:
identity) and `postProcessing` (default: no-op) run on the node, recorded in
the `morphed` trace. -/
def convertNode (P : FunctionConverter) (nid : NodeId) (s : ConvState) :
    Except ConvState ConvState :=
  if P.canConvert nid then
    match getNode s.fn nid with
    | none => .ok s
    | some n =>
      match runSteps (convertInput P nid) (List.range n.inputs.length) s with
      | .error e => .error e
      | .ok s1 =>
        match runSteps (convertOutput P nid) (List.range n.outTypes.length) s1 with
        | .error e => .error e
        | .ok s2 => .ok (ConvState.mk s2.fn s2.conversions_ (s2.morphed ++ [nid]))
  else .ok s

/-- Modelled from the spec: `FunctionConverter::convert` (header lines
149-163; spec paragraph 4.1).  Iterate a stable snapshot of the node
identities taken in their current order before any mutation (spec paragraph
4.1 step 1), starting from an empty conversion cache, then `cleanUp`
(a no-op).  The result carries the final state, or - on a hard
`createConversion` failure - the partially converted state. -/
def convert (P : FunctionConverter) (f : Function) : Except ConvState ConvState :=
  runSteps (convertNode P) (f.nodes.map Node.id) (ConvState.mk f [] [])

/-- Modelled from the spec: a fresh `convert()` invocation on a converter
whose `conversions_` member still holds the `staleConversions` recorded by an
earlier run.  The cache "is cleared for each fresh run" (spec paragraph 3,
invariant 3), so the stale list is discarded and the run proceeds from an
empty cache. -/
def convertFrom (P : FunctionConverter) (f : Function) (_staleConversions : List NodeId) :
    Except ConvState ConvState :=
  convert P f


/-! Concrete instances used to exercise the pass (witness graphs and
policies). -/

/-- Witness graph: one producer (node 0, type 5) consumed by two independent
nodes 1 and 2 (the dedup scenario of spec paragraph 8). -/
def exDedup_fn : Function :=
  Function.mk [Node.mk 0 [] [5], Node.mk 1 [NodeValue.mk 0 0] [7],
    Node.mk 2 [NodeValue.mk 0 0] [7]] 3

/-- Witness policy: every input of type 5 is requested as type 6; outputs are
left alone; everything is eligible and conversions always build. -/
def exDedup_pol : FunctionConverter :=
  FunctionConverter.mk (fun _ _ => none)
    (fun _ _ t => if t = 5 then some 6 else none)
    (fun _ => true) (fun _ _ => true)

/-- Result of running `exDedup_pol` over `exDedup_fn`: a single conversion
node 3 shared by both consumers. -/
def exDedup_res : ConvState :=
  ConvState.mk
    (Function.mk [Node.mk 0 [] [5], Node.mk 3 [NodeValue.mk 0 0] [6],
      Node.mk 1 [NodeValue.mk 3 0] [7], Node.mk 2 [NodeValue.mk 3 0] [7]] 4)
    [3] [0, 1, 2]

/-- A policy whose hooks are all absent: the no-op scenario. -/
def exQuiet_pol : FunctionConverter :=
  FunctionConverter.mk (fun _ _ => none) (fun _ _ _ => none)
    (fun _ => true) (fun _ _ => true)

/-- Witness graph for the output-mutation scenario: node 0 (type 5) consumed
by nodes 1 and 2. -/
def exOut_fn : Function :=
  Function.mk [Node.mk 0 [] [5], Node.mk 1 [NodeValue.mk 0 0] [9],
    Node.mk 2 [NodeValue.mk 0 0] [9]] 3

/-- Witness policy requesting type 6 for output (0,0) and nothing else. -/
def exOut_pol : FunctionConverter :=
  FunctionConverter.mk
    (fun v _ => if v = NodeValue.mk 0 0 then some 6 else none)
    (fun _ _ _ => none) (fun _ => true) (fun _ _ => true)

/-- Result of the output-mutation scenario: node 0 retyped to 6, conversion
node 3 (back to 5) inserted right after it, both consumers redirected. -/
def exOut_res : ConvState :=
  ConvState.mk
    (Function.mk [Node.mk 0 [] [6], Node.mk 3 [NodeValue.mk 0 0] [5],
      Node.mk 1 [NodeValue.mk 3 0] [9], Node.mk 2 [NodeValue.mk 3 0] [9]] 4)
    [3] [0, 1, 2]

/-- The output-requesting policy whose `createConversion` always fails. -/
def exFail_pol : FunctionConverter :=
  FunctionConverter.mk
    (fun v _ => if v = NodeValue.mk 0 0 then some 6 else none)
    (fun _ _ _ => none) (fun _ => true) (fun _ _ => false)

/-- The state at the hard failure: node 0's output already mutated to type 6,
nothing rolled back, no conversion recorded. -/
def exFail_err : ConvState :=
  ConvState.mk
    (Function.mk [Node.mk 0 [] [6], Node.mk 1 [NodeValue.mk 0 0] [9],
      Node.mk 2 [NodeValue.mk 0 0] [9]] 3)
    [] []

/-- Producer (node 0, type 5) and one consumer (node 1). -/
def exSkip_fn : Function :=
  Function.mk [Node.mk 0 [] [5], Node.mk 1 [NodeValue.mk 0 0] [7]] 2

/-- Policy that converts output (0,0) to type 6 but declares node 1
ineligible. -/
def exSkip_pol : FunctionConverter :=
  FunctionConverter.mk
    (fun v _ => if v = NodeValue.mk 0 0 then some 6 else none)
    (fun _ _ _ => none) (fun x => decide (x = 0)) (fun _ _ => true)

/-- Result on `exSkip_fn`: the ineligible node 1 is never visited, yet its
input edge is redirected to the inserted conversion node 2. -/
def exSkip_res : ConvState :=
  ConvState.mk
    (Function.mk [Node.mk 0 [] [6], Node.mk 2 [NodeValue.mk 0 0] [5],
      Node.mk 1 [NodeValue.mk 2 0] [7]] 3)
    [2] [0]

/-- Same as `exSkip_pol` but with every node eligible. -/
def exEdge_pol : FunctionConverter :=
  FunctionConverter.mk
    (fun v _ => if v = NodeValue.mk 0 0 then some 6 else none)
    (fun _ _ _ => none) (fun _ => true) (fun _ _ => true)

/-- Result of `exEdge_pol` on `exSkip_fn`: node 1's input hook always returns
absent, yet its input edge is rewired when node 0's output is mutated. -/
def exEdge_res : ConvState :=
  ConvState.mk
    (Function.mk [Node.mk 0 [] [6], Node.mk 2 [NodeValue.mk 0 0] [5],
      Node.mk 1 [NodeValue.mk 2 0] [7]] 3)
    [2] [0, 1]

/-! Basic facts about node lookup and the list-surgery primitives. -/

theorem lookupN_id {l : List Node} {x : NodeId} {n : Node} (h : lookupN l x = some n) :
    n.id = x := by
  induction l with
  | nil => exact absurd h (by simp [lookupN])
  | cons m ms ih =>
    rw [lookupN] at h
    split at h
    · cases h; assumption
    · exact ih h

theorem lookupN_mem {l : List Node} {x : NodeId} {n : Node} (h : lookupN l x = some n) :
    n ∈ l := by
  induction l with
  | nil => exact absurd h (by simp [lookupN])
  | cons m ms ih =>
    rw [lookupN] at h
    split at h
    · cases h; exact List.mem_cons_self _ _
    · exact List.mem_cons_of_mem _ (ih h)

theorem lookupN_eq_none {l : List Node} {x : NodeId} (h : lookupN l x = none) :
    ∀ n ∈ l, n.id ≠ x := by
  induction l with
  | nil => simp
  | cons m ms ih =>
    rw [lookupN] at h
    split at h
    · exact absurd h (by simp)
    · intro n hn
      rcases List.mem_cons.1 hn with rfl | hn
      · assumption
      · exact ih h n hn

theorem lookupN_of_mem {l : List Node} {n : Node}
    (hnd : (l.map Node.id).Nodup) (hm : n ∈ l) : lookupN l n.id = some n := by
  induction l with
  | nil => simp at hm
  | cons m ms ih =>
    simp only [List.map_cons, List.nodup_cons] at hnd
    rcases List.mem_cons.1 hm with rfl | hm'
    · simp [lookupN]
    · have hne : m.id ≠ n.id := by
        intro he
        exact hnd.1 (he ▸ List.mem_map_of_mem Node.id hm')
      simp [lookupN, hne]
      exact ih hnd.2 hm'

theorem lookupN_map {g : Node → Node} (hg : ∀ n, (g n).id = n.id) (l : List Node) (x : NodeId) :
    lookupN (l.map g) x = (lookupN l x).map g := by
  induction l with
  | nil => simp [lookupN]
  | cons m ms ih =>
    by_cases hm : m.id = x
    · simp [lookupN, hg, hm]
    · simp [lookupN, hg, hm, ih]

theorem lookupN_nil (x : NodeId) : lookupN [] x = none := rfl

theorem lookupN_cons (a : Node) (l : List Node) (x : NodeId) :
    lookupN (a :: l) x = if a.id = x then some a else lookupN l x := rfl

theorem insertBeforeList_perm (t : NodeId) (c : Node) (l : List Node) :
    List.Perm (insertBeforeList t c l) (c :: l) := by
  induction l with
  | nil => simp [insertBeforeList]
  | cons m ms ih =>
    rw [insertBeforeList]
    split
    · exact List.Perm.refl _
    · exact (List.Perm.cons m ih).trans (List.Perm.swap c m ms)

theorem insertAfterList_perm (t : NodeId) (c : Node) (l : List Node) :
    List.Perm (insertAfterList t c l) (c :: l) := by
  induction l with
  | nil => simp [insertAfterList]
  | cons m ms ih =>
    rw [insertAfterList]
    split
    · exact List.Perm.swap c m ms
    · exact (List.Perm.cons m ih).trans (List.Perm.swap c m ms)

theorem mem_insertBeforeList {t : NodeId} {c : Node} {l : List Node} {n : Node} :
    n ∈ insertBeforeList t c l ↔ n = c ∨ n ∈ l := by
  rw [(insertBeforeList_perm t c l).mem_iff, List.mem_cons]

theorem mem_insertAfterList {t : NodeId} {c : Node} {l : List Node} {n : Node} :
    n ∈ insertAfterList t c l ↔ n = c ∨ n ∈ l := by
  rw [(insertAfterList_perm t c l).mem_iff, List.mem_cons]

theorem lookupN_insertBeforeList_ne {t : NodeId} {c : Node} {l : List Node} {x : NodeId}
    (hx : x ≠ c.id) : lookupN (insertBeforeList t c l) x = lookupN l x := by
  induction l with
  | nil => simp [insertBeforeList, lookupN_cons, lookupN_nil, Ne.symm hx]
  | cons m ms ih =>
    rw [insertBeforeList]
    split
    · rw [lookupN_cons, if_neg (Ne.symm hx)]
    · rw [lookupN_cons, lookupN_cons, ih]

theorem lookupN_insertAfterList_ne {t : NodeId} {c : Node} {l : List Node} {x : NodeId}
    (hx : x ≠ c.id) : lookupN (insertAfterList t c l) x = lookupN l x := by
  induction l with
  | nil => simp [insertAfterList, lookupN_cons, lookupN_nil, Ne.symm hx]
  | cons m ms ih =>
    rw [insertAfterList]
    split
    · by_cases hmx : m.id = x
      · rw [lookupN_cons, if_pos hmx, lookupN_cons, if_pos hmx]
      · rw [lookupN_cons, if_neg hmx, lookupN_cons, if_neg (Ne.symm hx), lookupN_cons,
          if_neg hmx]
    · rw [lookupN_cons, lookupN_cons, ih]

theorem lookupN_insertBeforeList_self {t : NodeId} {c : Node} {l : List Node}
    (hfr : ∀ n ∈ l, n.id ≠ c.id) : lookupN (insertBeforeList t c l) c.id = some c := by
  induction l with
  | nil => simp [insertBeforeList, lookupN_cons]
  | cons m ms ih =>
    rw [insertBeforeList]
    split
    · rw [lookupN_cons, if_pos rfl]
    · rw [lookupN_cons, if_neg (hfr m (List.mem_cons_self _ _))]
      exact ih fun n hn => hfr n (List.mem_cons_of_mem _ hn)

theorem lookupN_insertAfterList_self {t : NodeId} {c : Node} {l : List Node}
    (hfr : ∀ n ∈ l, n.id ≠ c.id) : lookupN (insertAfterList t c l) c.id = some c := by
  induction l with
  | nil => simp [insertAfterList, lookupN_cons]
  | cons m ms ih =>
    rw [insertAfterList]
    split
    · rw [lookupN_cons, if_neg (hfr m (List.mem_cons_self _ _)), lookupN_cons, if_pos rfl]
    · rw [lookupN_cons, if_neg (hfr m (List.mem_cons_self _ _))]
      exact ih fun n hn => hfr n (List.mem_cons_of_mem _ hn)

theorem insertAfterList_decomp {t : NodeId} {l : List Node} {m : Node}
    (hm : lookupN l t = some m) (c : Node) :
    ∃ l1 l2, l = l1 ++ m :: l2 ∧ insertAfterList t c l = l1 ++ m :: c :: l2 := by
  induction l with
  | nil => exact absurd hm (by simp [lookupN_nil])
  | cons a as ih =>
    rw [lookupN_cons] at hm
    by_cases ha : a.id = t
    · rw [if_pos ha] at hm
      cases hm
      exact ⟨[], as, rfl, by rw [insertAfterList, if_pos ha]; simp⟩
    · rw [if_neg ha] at hm
      obtain ⟨l1, l2, he, hi⟩ := ih hm
      exact ⟨a :: l1, l2, by simp [he], by rw [insertAfterList, if_neg ha]; simp [hi]⟩

/-! Observation lemmas: how `getNode`, `typeOf`, `inputOf` and `outTypeOf`
move through the graph mutators. -/

theorem getNode_mk (L : List Node) (k : NodeId) (x : NodeId) :
    getNode (Function.mk L k) x = lookupN L x := rfl

theorem getNode_updateNode_ne {f : Function} {x y : NodeId} {u : Node → Node}
    (hu : ∀ n, (u n).id = n.id) (hxy : y ≠ x) :
    getNode (updateNode f x u) y = getNode f y := by
  have hg : ∀ n : Node, ((if n.id = x then u n else n) : Node).id = n.id := by
    intro n; split
    · exact hu n
    · rfl
  simp only [getNode, updateNode]
  rw [lookupN_map hg]
  cases h : lookupN f.nodes y with
  | none => rfl
  | some n =>
    have hid : n.id = y := lookupN_id h
    simp [hid, hxy]

theorem getNode_updateNode_self {f : Function} {x : NodeId} {u : Node → Node}
    (hu : ∀ n, (u n).id = n.id) :
    getNode (updateNode f x u) x = (getNode f x).map u := by
  have hg : ∀ n : Node, ((if n.id = x then u n else n) : Node).id = n.id := by
    intro n; split
    · exact hu n
    · rfl
  simp only [getNode, updateNode]
  rw [lookupN_map hg]
  cases h : lookupN f.nodes x with
  | none => rfl
  | some n =>
    have hid : n.id = x := lookupN_id h
    simp [hid]

theorem typeOf_updateNode_outPres {f : Function} {x : NodeId} {u : Node → Node}
    (hu : ∀ n, (u n).id = n.id) (ho : ∀ n, (u n).outTypes = n.outTypes) (v : NodeValue) :
    typeOf (updateNode f x u) v = typeOf f v := by
  by_cases hvx : v.node = x
  · rw [typeOf, typeOf, hvx, getNode_updateNode_self hu]
    cases getNode f x with
    | none => rfl
    | some n => simp [ho]
  · rw [typeOf, typeOf, getNode_updateNode_ne hu hvx]

theorem outTypeOf_updateNode_ne {f : Function} {x y : NodeId} {u : Node → Node}
    (hu : ∀ n, (u n).id = n.id) (hxy : y ≠ x) (o : Nat) :
    outTypeOf (updateNode f x u) y o = outTypeOf f y o := by
  rw [outTypeOf, outTypeOf, getNode_updateNode_ne hu hxy]

theorem outTypeOf_updateNode_outPres {f : Function} {x : NodeId} {u : Node → Node}
    (hu : ∀ n, (u n).id = n.id) (ho : ∀ n, (u n).outTypes = n.outTypes) (y : NodeId) (o : Nat) :
    outTypeOf (updateNode f x u) y o = outTypeOf f y o := by
  by_cases hvx : y = x
  · subst hvx
    rw [outTypeOf, outTypeOf, getNode_updateNode_self hu]
    cases getNode f y with
    | none => rfl
    | some n => simp [ho]
  · exact outTypeOf_updateNode_ne hu hvx o

theorem inputOf_updateNode_ne {f : Function} {x y : NodeId} {u : Node → Node}
    (hu : ∀ n, (u n).id = n.id) (hxy : y ≠ x) (j : Nat) :
    inputOf (updateNode f x u) y j = inputOf f y j := by
  rw [inputOf, inputOf, getNode_updateNode_ne hu hxy]

theorem getNode_setInput_ne {f : Function} {x y : NodeId} {j : Nat} {v : NodeValue}
    (hxy : y ≠ x) : getNode (setInput f x j v) y = getNode f y := by
  rw [setInput]
  exact getNode_updateNode_ne (fun _ => rfl) hxy

theorem getNode_setInput_self {f : Function} {x : NodeId} {j : Nat} {v : NodeValue} :
    getNode (setInput f x j v) x
      = (getNode f x).map fun n => Node.mk n.id (n.inputs.set j v) n.outTypes := by
  rw [setInput]
  exact getNode_updateNode_self (fun _ => rfl)

theorem typeOf_setInput {f : Function} {x : NodeId} {j : Nat} {v : NodeValue} (w : NodeValue) :
    typeOf (setInput f x j v) w = typeOf f w := by
  rw [setInput]
  apply typeOf_updateNode_outPres
  · intro n; rfl
  · intro n; rfl

theorem outTypeOf_setInput {f : Function} {x : NodeId} {j : Nat} {v : NodeValue}
    (y : NodeId) (o : Nat) : outTypeOf (setInput f x j v) y o = outTypeOf f y o := by
  rw [setInput]
  apply outTypeOf_updateNode_outPres
  · intro n; rfl
  · intro n; rfl

theorem inputOf_setInput_ne_node {f : Function} {x y : NodeId} {j : Nat} {v : NodeValue}
    (hxy : y ≠ x) (k : Nat) : inputOf (setInput f x j v) y k = inputOf f y k := by
  rw [setInput]
  apply inputOf_updateNode_ne
  · intro n; rfl
  · exact hxy

theorem inputOf_setInput_ne_slot {f : Function} {x : NodeId} {j k : Nat} {v : NodeValue}
    (hjk : k ≠ j) : inputOf (setInput f x j v) x k = inputOf f x k := by
  rw [inputOf, inputOf, getNode_setInput_self]
  cases getNode f x with
  | none => rfl
  | some n => simp [List.getElem?_set_ne (Ne.symm hjk)]

theorem inputOf_setInput_self {f : Function} {x : NodeId} {j : Nat} {v w : NodeValue}
    (hw : inputOf f x j = some w) : inputOf (setInput f x j v) x j = some v := by
  rw [inputOf] at hw ⊢
  rw [getNode_setInput_self]
  cases hn : getNode f x with
  | none => rw [hn] at hw; exact absurd hw (by simp)
  | some n =>
    rw [hn] at hw
    simp only [Option.some_bind] at hw
    have hj : j < n.inputs.length := by
      by_contra hj
      rw [List.getElem?_eq_none (Nat.le_of_not_lt hj)] at hw
      exact absurd hw (by simp)
    simp [List.getElem?_set_self hj]

theorem getNode_redirectListed_notmem {f : Function} {us : List NodeId} {old new : NodeValue}
    {y : NodeId} (hy : y ∉ us) :
    getNode (redirectListed f us old new) y = getNode f y := by
  have hg : ∀ n : Node,
      ((if n.id ∈ us then Node.mk n.id (n.inputs.map fun w => if w = old then new else w)
          n.outTypes else n) : Node).id = n.id := by
    intro n; split <;> rfl
  simp only [getNode, redirectListed]
  rw [lookupN_map hg]
  cases h : lookupN f.nodes y with
  | none => rfl
  | some n =>
    have hid : n.id = y := lookupN_id h
    simp [hid, hy]

theorem getNode_redirectListed_mem {f : Function} {us : List NodeId} {old new : NodeValue}
    {y : NodeId} (hy : y ∈ us) :
    getNode (redirectListed f us old new) y
      = (getNode f y).map fun n =>
          Node.mk n.id (n.inputs.map fun w => if w = old then new else w) n.outTypes := by
  have hg : ∀ n : Node,
      ((if n.id ∈ us then Node.mk n.id (n.inputs.map fun w => if w = old then new else w)
          n.outTypes else n) : Node).id = n.id := by
    intro n; split <;> rfl
  simp only [getNode, redirectListed]
  rw [lookupN_map hg]
  cases h : lookupN f.nodes y with
  | none => rfl
  | some n =>
    have hid : n.id = y := lookupN_id h
    simp [hid, hy]

theorem typeOf_redirectListed {f : Function} {us : List NodeId} {old new : NodeValue}
    (v : NodeValue) : typeOf (redirectListed f us old new) v = typeOf f v := by
  by_cases hv : v.node ∈ us
  · rw [typeOf, typeOf, getNode_redirectListed_mem hv]
    cases getNode f v.node with
    | none => rfl
    | some n => simp
  · rw [typeOf, typeOf, getNode_redirectListed_notmem hv]

theorem outTypeOf_redirectListed {f : Function} {us : List NodeId} {old new : NodeValue}
    (y : NodeId) (o : Nat) :
    outTypeOf (redirectListed f us old new) y o = outTypeOf f y o := by
  by_cases hv : y ∈ us
  · rw [outTypeOf, outTypeOf, getNode_redirectListed_mem hv]
    cases getNode f y with
    | none => rfl
    | some n => simp
  · rw [outTypeOf, outTypeOf, getNode_redirectListed_notmem hv]

theorem inputOf_redirectListed_mem {f : Function} {us : List NodeId} {old new : NodeValue}
    {y : NodeId} (hy : y ∈ us) (j : Nat) :
    inputOf (redirectListed f us old new) y j
      = (inputOf f y j).map fun w => if w = old then new else w := by
  rw [inputOf, inputOf, getNode_redirectListed_mem hy]
  cases getNode f y with
  | none => rfl
  | some n => simp

theorem inputOf_redirectListed_notmem {f : Function} {us : List NodeId} {old new : NodeValue}
    {y : NodeId} (hy : y ∉ us) (j : Nat) :
    inputOf (redirectListed f us old new) y j = inputOf f y j := by
  rw [inputOf, inputOf, getNode_redirectListed_notmem hy]

theorem mem_usersOf {f : Function} {v : NodeValue} {x : NodeId} :
    x ∈ usersOf f v ↔ ∃ n ∈ f.nodes, n.id = x ∧ v ∈ n.inputs := by
  rw [usersOf]
  constructor
  · intro hx
    obtain ⟨n, hn, rfl⟩ := List.mem_map.1 hx
    have := List.mem_filter.1 hn
    exact ⟨n, this.1, rfl, of_decide_eq_true this.2⟩
  · rintro ⟨n, hn, rfl, hv⟩
    exact List.mem_map_of_mem _ (List.mem_filter.2 ⟨hn, decide_eq_true hv⟩)

theorem usersOf_sub {f : Function} {v : NodeValue} {x : NodeId} (hx : x ∈ usersOf f v) :
    ∃ n ∈ f.nodes, n.id = x := by
  obtain ⟨n, hn, hid, _⟩ := mem_usersOf.1 hx
  exact ⟨n, hn, hid⟩


theorem getNode_setOutType_ne {f : Function} {x y : NodeId} {o : Nat} {ty : Ty}
    (hxy : y ≠ x) : getNode (setOutType f x o ty) y = getNode f y := by
  rw [setOutType]
  exact getNode_updateNode_ne (fun _ => rfl) hxy

theorem getNode_setOutType_self {f : Function} {x : NodeId} {o : Nat} {ty : Ty} :
    getNode (setOutType f x o ty) x
      = (getNode f x).map fun n => Node.mk n.id n.inputs (n.outTypes.set o ty) := by
  rw [setOutType]
  exact getNode_updateNode_self (fun _ => rfl)

theorem inputOf_setOutType {f : Function} {x : NodeId} {o : Nat} {ty : Ty}
    (y : NodeId) (j : Nat) : inputOf (setOutType f x o ty) y j = inputOf f y j := by
  by_cases hxy : y = x
  · subst hxy
    rw [inputOf, inputOf, getNode_setOutType_self]
    cases getNode f y with
    | none => rfl
    | some n => simp
  · rw [setOutType]
    apply inputOf_updateNode_ne
    · intro n; rfl
    · exact hxy

theorem typeOf_setOutType_pres {f : Function} {x : NodeId} {o : Nat} {ty : Ty}
    {v : NodeValue} (hv : ¬(v.node = x ∧ v.resNo = o)) :
    typeOf (setOutType f x o ty) v = typeOf f v := by
  by_cases hvx : v.node = x
  · have ho : v.resNo ≠ o := fun hh => hv ⟨hvx, hh⟩
    rw [typeOf, typeOf, hvx, getNode_setOutType_self]
    cases getNode f x with
    | none => rfl
    | some n => simp [List.getElem?_set_ne (Ne.symm ho)]
  · rw [typeOf, typeOf, getNode_setOutType_ne hvx]

theorem typeOf_setOutType_self {f : Function} {x : NodeId} {o : Nat} {ty curTy : Ty}
    (h : typeOf f (NodeValue.mk x o) = some curTy) :
    typeOf (setOutType f x o ty) (NodeValue.mk x o) = some ty := by
  rw [typeOf] at h ⊢
  rw [getNode_setOutType_self]
  cases hn : getNode f x with
  | none => rw [hn] at h; exact absurd h (by simp)
  | some n =>
    rw [hn] at h
    simp only [Option.some_bind] at h
    have hb : o < n.outTypes.length := by
      by_contra hb
      rw [List.getElem?_eq_none (Nat.le_of_not_lt hb)] at h
      exact absurd h (by simp)
    simp [List.getElem?_set_self hb]

theorem outTypeOf_setOutType_pres {f : Function} {x : NodeId} {o : Nat} {ty : Ty}
    {y : NodeId} {o2 : Nat} (h : ¬(y = x ∧ o2 = o)) :
    outTypeOf (setOutType f x o ty) y o2 = outTypeOf f y o2 :=
  typeOf_setOutType_pres (v := NodeValue.mk y o2) h

theorem nextId_setOutType {f : Function} {x : NodeId} {o : Nat} {ty : Ty} :
    (setOutType f x o ty).nextId = f.nextId := rfl

theorem getNode_insertNodeBefore_ne {f : Function} {t : NodeId} {c : Node} {y : NodeId}
    (hy : y ≠ c.id) : getNode (insertNodeBefore f t c) y = getNode f y :=
  lookupN_insertBeforeList_ne hy

theorem getNode_insertNodeAfter_ne {f : Function} {t : NodeId} {c : Node} {y : NodeId}
    (hy : y ≠ c.id) : getNode (insertNodeAfter f t c) y = getNode f y :=
  lookupN_insertAfterList_ne hy

theorem getNode_insertNodeBefore_self {f : Function} {t : NodeId} {c : Node}
    (hfr : ∀ n ∈ f.nodes, n.id ≠ c.id) :
    getNode (insertNodeBefore f t c) c.id = some c :=
  lookupN_insertBeforeList_self hfr

theorem getNode_insertNodeAfter_self {f : Function} {t : NodeId} {c : Node}
    (hfr : ∀ n ∈ f.nodes, n.id ≠ c.id) :
    getNode (insertNodeAfter f t c) c.id = some c :=
  lookupN_insertAfterList_self hfr

theorem typeOf_insertNodeBefore_ne {f : Function} {t : NodeId} {c : Node} {v : NodeValue}
    (hv : v.node ≠ c.id) : typeOf (insertNodeBefore f t c) v = typeOf f v := by
  rw [typeOf, typeOf, getNode_insertNodeBefore_ne hv]

theorem typeOf_insertNodeAfter_ne {f : Function} {t : NodeId} {c : Node} {v : NodeValue}
    (hv : v.node ≠ c.id) : typeOf (insertNodeAfter f t c) v = typeOf f v := by
  rw [typeOf, typeOf, getNode_insertNodeAfter_ne hv]

theorem inputOf_insertNodeBefore_ne {f : Function} {t : NodeId} {c : Node} {y : NodeId}
    (hy : y ≠ c.id) (j : Nat) : inputOf (insertNodeBefore f t c) y j = inputOf f y j := by
  rw [inputOf, inputOf, getNode_insertNodeBefore_ne hy]

theorem inputOf_insertNodeAfter_ne {f : Function} {t : NodeId} {c : Node} {y : NodeId}
    (hy : y ≠ c.id) (j : Nat) : inputOf (insertNodeAfter f t c) y j = inputOf f y j := by
  rw [inputOf, inputOf, getNode_insertNodeAfter_ne hy]

theorem outTypeOf_insertNodeBefore_ne {f : Function} {t : NodeId} {c : Node} {y : NodeId}
    (hy : y ≠ c.id) (o : Nat) : outTypeOf (insertNodeBefore f t c) y o = outTypeOf f y o := by
  rw [outTypeOf, outTypeOf, getNode_insertNodeBefore_ne hy]

theorem outTypeOf_insertNodeAfter_ne {f : Function} {t : NodeId} {c : Node} {y : NodeId}
    (hy : y ≠ c.id) (o : Nat) : outTypeOf (insertNodeAfter f t c) y o = outTypeOf f y o := by
  rw [outTypeOf, outTypeOf, getNode_insertNodeAfter_ne hy]

theorem mem_nodes_insertNodeBefore {f : Function} {t : NodeId} {c : Node} {n : Node} :
    n ∈ (insertNodeBefore f t c).nodes ↔ n = c ∨ n ∈ f.nodes :=
  mem_insertBeforeList

theorem mem_nodes_insertNodeAfter {f : Function} {t : NodeId} {c : Node} {n : Node} :
    n ∈ (insertNodeAfter f t c).nodes ↔ n = c ∨ n ∈ f.nodes :=
  mem_insertAfterList

theorem nodup_insertNodeBefore {f : Function} {t : NodeId} {c : Node}
    (hnd : (f.nodes.map Node.id).Nodup) (hfr : c.id ∉ f.nodes.map Node.id) :
    ((insertNodeBefore f t c).nodes.map Node.id).Nodup := by
  have hp := (insertBeforeList_perm t c f.nodes).map Node.id
  exact hp.nodup_iff.2 (List.nodup_cons.2 ⟨hfr, hnd⟩)

theorem nodup_insertNodeAfter {f : Function} {t : NodeId} {c : Node}
    (hnd : (f.nodes.map Node.id).Nodup) (hfr : c.id ∉ f.nodes.map Node.id) :
    ((insertNodeAfter f t c).nodes.map Node.id).Nodup := by
  have hp := (insertAfterList_perm t c f.nodes).map Node.id
  exact hp.nodup_iff.2 (List.nodup_cons.2 ⟨hfr, hnd⟩)

theorem mem_range'_iff {a k m : Nat} : m ∈ List.range' a k ↔ a ≤ m ∧ m < a + k := by
  rw [List.mem_range']
  constructor
  · rintro ⟨i, hi, rfl⟩
    omega
  · intro h
    exact ⟨m - a, by omega, by omega⟩

theorem findInCache_some {f : Function} {cache : List NodeId} {v : NodeValue} {destTy : Ty}
    {c : NodeId} (h : findInCache f cache v destTy = some c) :
    c ∈ cache ∧ ∃ cn, lookupN f.nodes c = some cn ∧ cn.inputs[0]? = some v ∧
      cn.outTypes[0]? = some destTy := by
  refine ⟨List.mem_of_find?_eq_some h, ?_⟩
  have hp := List.find?_some h
  rw [isCachedConv] at hp
  cases hcn : lookupN f.nodes c with
  | none => rw [hcn] at hp; exact absurd hp (by simp)
  | some cn =>
    rw [hcn] at hp
    exact ⟨cn, rfl, of_decide_eq_true hp⟩

theorem findInCache_none {f : Function} {cache : List NodeId} {v : NodeValue} {destTy : Ty}
    (h : findInCache f cache v destTy = none) :
    ∀ c ∈ cache, ∀ cn, lookupN f.nodes c = some cn →
      ¬(cn.inputs[0]? = some v ∧ cn.outTypes[0]? = some destTy) := by
  intro c hc cn hcn hcontra
  have := List.find?_eq_none.1 h c hc
  rw [isCachedConv, hcn] at this
  exact this (decide_eq_true hcontra)


/-! The pass invariant and the per-slot fixed-point properties. -/

/-- Fixed-point property of input slot `j` of node `x` in graph `f` (the
conclusion of the well-typedness property, spec paragraph 8): the target-type
hook applied to the slot's current type requests nothing or that very type. -/
def inSlotFixed (P : FunctionConverter) (f : Function) (x : NodeId) (j : Nat) : Prop :=
  ∀ t, inTypeOf f x j = some t →
    P.getTargetTypeForInput x j t = none ∨ P.getTargetTypeForInput x j t = some t

/-- Fixed-point property of output slot `o` of node `x` in graph `f`. -/
def outSlotFixed (P : FunctionConverter) (f : Function) (x : NodeId) (o : Nat) : Prop :=
  ∀ t, outTypeOf f x o = some t →
    P.getTargetTypeForOutput (NodeValue.mk x o) t = none ∨
      P.getTargetTypeForOutput (NodeValue.mk x o) t = some t

/-- Contract of `getTargetTypeForInput` (header lines 72-94: the returned type
"is the type this value will have at the end of ::convert"; spec paragraph
4.1: policy hooks must be "idempotent against already-converted types"):
re-querying the hook at the type it itself requested asks for no further
change. -/
def inHookIdem (P : FunctionConverter) : Prop :=
  ∀ x j t t2, P.getTargetTypeForInput x j t = some t2 →
    P.getTargetTypeForInput x j t2 = none ∨ P.getTargetTypeForInput x j t2 = some t2

/-- Contract of `getTargetTypeForOutput` (header lines 47-70), mirroring
`inHookIdem`. -/
def outHookIdem (P : FunctionConverter) : Prop :=
  ∀ v t t2, P.getTargetTypeForOutput v t = some t2 →
    P.getTargetTypeForOutput v t2 = none ∨ P.getTargetTypeForOutput v t2 = some t2

/-- The invariant maintained by every step of the pass, relative to the
function `f0` the pass was started on: well-formedness of the evolving graph
(identities below the fresh counter, no duplicate identities, input edges
referencing identities below the counter), persistence of the original nodes,
and soundness of the conversion cache - it lists exactly the identities this
invocation has created, in creation order (`cache_range`), each being a
one-input one-result conversion node whose destination type differs from its
source's current type (`cache_conv`), no two sharing their (source value,
destination type) key (`cache_keys`). -/
structure Inv (f0 : Function) (s : ConvState) : Prop where
  ids_lt : ∀ n ∈ s.fn.nodes, n.id < s.fn.nextId
  ids_nodup : (s.fn.nodes.map Node.id).Nodup
  inputs_lt : ∀ n ∈ s.fn.nodes, ∀ v ∈ n.inputs, v.node < s.fn.nextId
  base_le : f0.nextId ≤ s.fn.nextId
  orig_present : ∀ x n, lookupN f0.nodes x = some n → ∃ m, lookupN s.fn.nodes x = some m
  cache_range : s.conversions_ = List.range' f0.nextId (s.fn.nextId - f0.nextId)
  cache_conv : ∀ c ∈ s.conversions_, ∃ srcv dstTy srcTy,
    lookupN s.fn.nodes c = some (Node.mk c [srcv] [dstTy]) ∧
    typeOf s.fn srcv = some srcTy ∧ dstTy ≠ srcTy
  cache_keys : s.conversions_.Pairwise fun c d =>
    ¬(convSrc s.fn c = convSrc s.fn d ∧ convDst s.fn c = convDst s.fn d)

theorem Inv.cache_bounds {f0 : Function} {s : ConvState} (hinv : Inv f0 s)
    {c : NodeId} (hc : c ∈ s.conversions_) : f0.nextId ≤ c ∧ c < s.fn.nextId := by
  rw [hinv.cache_range, mem_range'_iff, Nat.add_sub_cancel' hinv.base_le] at hc
  exact hc

/-- The well-formedness part of the invariant for the starting function (the
hypothesis of every whole-pass theorem). -/
structure WFF (f : Function) : Prop where
  ids_lt : ∀ n ∈ f.nodes, n.id < f.nextId
  ids_nodup : (f.nodes.map Node.id).Nodup
  inputs_lt : ∀ n ∈ f.nodes, ∀ v ∈ n.inputs, v.node < f.nextId

theorem Inv.init {f : Function} (hwf : WFF f) : Inv f (ConvState.mk f [] []) where
  ids_lt := hwf.ids_lt
  ids_nodup := hwf.ids_nodup
  inputs_lt := hwf.inputs_lt
  base_le := Nat.le_refl _
  orig_present := fun x n h => ⟨n, h⟩
  cache_range := by simp
  cache_conv := by simp
  cache_keys := List.Pairwise.nil


/-! Structural helpers for the mutators. -/

theorem nextId_updateNode {f : Function} {x : NodeId} {u : Node → Node} :
    (updateNode f x u).nextId = f.nextId := rfl

theorem nextId_setInput {f : Function} {x : NodeId} {j : Nat} {v : NodeValue} :
    (setInput f x j v).nextId = f.nextId := rfl

theorem nextId_redirectListed {f : Function} {us : List NodeId} {old new : NodeValue} :
    (redirectListed f us old new).nextId = f.nextId := rfl

theorem nextId_insertNodeBefore {f : Function} {t : NodeId} {c : Node} :
    (insertNodeBefore f t c).nextId = f.nextId + 1 := rfl

theorem nextId_insertNodeAfter {f : Function} {t : NodeId} {c : Node} :
    (insertNodeAfter f t c).nextId = f.nextId + 1 := rfl

theorem mem_nodes_updateNode {f : Function} {x : NodeId} {u : Node → Node} {m : Node}
    (hm : m ∈ (updateNode f x u).nodes) :
    ∃ n ∈ f.nodes, m = if n.id = x then u n else n := by
  rw [updateNode] at hm
  obtain ⟨n, hn, he⟩ := List.mem_map.1 hm
  exact ⟨n, hn, he.symm⟩

theorem mem_nodes_redirectListed {f : Function} {us : List NodeId} {old new : NodeValue}
    {m : Node} (hm : m ∈ (redirectListed f us old new).nodes) :
    ∃ n ∈ f.nodes, m = if n.id ∈ us then
      Node.mk n.id (n.inputs.map fun w => if w = old then new else w) n.outTypes else n := by
  rw [redirectListed] at hm
  obtain ⟨n, hn, he⟩ := List.mem_map.1 hm
  exact ⟨n, hn, he.symm⟩

theorem idsMap_updateNode {f : Function} {x : NodeId} {u : Node → Node}
    (hu : ∀ n, (u n).id = n.id) :
    (updateNode f x u).nodes.map Node.id = f.nodes.map Node.id := by
  rw [updateNode, List.map_map]
  refine List.map_congr_left fun n _ => ?_
  show (if n.id = x then u n else n).id = n.id
  split
  · exact hu n
  · rfl

theorem idsMap_setInput {f : Function} {x : NodeId} {j : Nat} {v : NodeValue} :
    (setInput f x j v).nodes.map Node.id = f.nodes.map Node.id := by
  rw [setInput]
  exact idsMap_updateNode fun _ => rfl

theorem idsMap_setOutType {f : Function} {x : NodeId} {o : Nat} {ty : Ty} :
    (setOutType f x o ty).nodes.map Node.id = f.nodes.map Node.id := by
  rw [setOutType]
  exact idsMap_updateNode fun _ => rfl

theorem idsMap_redirectListed {f : Function} {us : List NodeId} {old new : NodeValue} :
    (redirectListed f us old new).nodes.map Node.id = f.nodes.map Node.id := by
  rw [redirectListed, List.map_map]
  refine List.map_congr_left fun n _ => ?_
  show (if n.id ∈ us then
    Node.mk n.id (n.inputs.map fun w => if w = old then new else w) n.outTypes else n).id = n.id
  split <;> rfl

theorem getNode_isSome_updateNode {f : Function} {x y : NodeId} {u : Node → Node}
    (hu : ∀ n, (u n).id = n.id) (h : (getNode f y).isSome) :
    (getNode (updateNode f x u) y).isSome := by
  obtain ⟨n, hn⟩ := Option.isSome_iff_exists.1 h
  by_cases hxy : y = x
  · subst hxy
    rw [getNode_updateNode_self hu, hn]
    simp
  · rw [getNode_updateNode_ne hu hxy]
    exact h

theorem getNode_isSome_redirectListed {f : Function} {us : List NodeId} {old new : NodeValue}
    {y : NodeId} (h : (getNode f y).isSome) :
    (getNode (redirectListed f us old new) y).isSome := by
  obtain ⟨n, hn⟩ := Option.isSome_iff_exists.1 h
  by_cases hy : y ∈ us
  · rw [getNode_redirectListed_mem hy, hn]
    simp
  · rw [getNode_redirectListed_notmem hy]
    exact h

theorem inTypeOf_eq_typeOf {f : Function} {x : NodeId} {j : Nat} {n : Node} {v : NodeValue}
    (hg : getNode f x = some n) (hi : n.inputs[j]? = some v) :
    inTypeOf f x j = typeOf f v := by
  rw [inTypeOf, inputOf, hg]
  simp [hi]

theorem inTypeOf_none_noNode {f : Function} {x : NodeId} {j : Nat}
    (hg : getNode f x = none) : inTypeOf f x j = none := by
  rw [inTypeOf, inputOf, hg]
  rfl

theorem inTypeOf_none_noSlot {f : Function} {x : NodeId} {j : Nat} {n : Node}
    (hg : getNode f x = some n) (hi : n.inputs[j]? = none) : inTypeOf f x j = none := by
  rw [inTypeOf, inputOf, hg]
  simp [hi]

theorem inTypeOf_setInput_pres {f : Function} {nid : NodeId} {idx : Nat} {w : NodeValue}
    {x : NodeId} {j : Nat} (hx : ¬(x = nid ∧ j = idx)) :
    inTypeOf (setInput f nid idx w) x j = inTypeOf f x j := by
  rw [inTypeOf, inTypeOf]
  have hi : inputOf (setInput f nid idx w) x j = inputOf f x j := by
    by_cases hxn : x = nid
    · subst hxn
      exact inputOf_setInput_ne_slot fun hj => hx ⟨rfl, hj⟩
    · exact inputOf_setInput_ne_node hxn j
  rw [hi]
  cases inputOf f x j with
  | none => rfl
  | some u2 => simp [typeOf_setInput]

/-! Equation lemmas: the branches of `convertInput`. -/

theorem convertInput_eq_noNode {P : FunctionConverter} {nid : NodeId} {idx : Nat}
    {s : ConvState} (hg : getNode s.fn nid = none) : convertInput P nid idx s = .ok s := by
  simp only [convertInput, hg]

theorem convertInput_eq_noSlot {P : FunctionConverter} {nid : NodeId} {idx : Nat}
    {s : ConvState} {n : Node} (hg : getNode s.fn nid = some n)
    (hi : n.inputs[idx]? = none) : convertInput P nid idx s = .ok s := by
  simp only [convertInput, hg, hi]

theorem convertInput_eq_noType {P : FunctionConverter} {nid : NodeId} {idx : Nat}
    {s : ConvState} {n : Node} {v : NodeValue} (hg : getNode s.fn nid = some n)
    (hi : n.inputs[idx]? = some v) (hv : typeOf s.fn v = none) :
    convertInput P nid idx s = .ok s := by
  simp only [convertInput, hg, hi, hv]

theorem convertInput_eq_noTarget {P : FunctionConverter} {nid : NodeId} {idx : Nat}
    {s : ConvState} {n : Node} {v : NodeValue} {curTy : Ty} (hg : getNode s.fn nid = some n)
    (hi : n.inputs[idx]? = some v) (hv : typeOf s.fn v = some curTy)
    (ht : P.getTargetTypeForInput nid idx curTy = none) :
    convertInput P nid idx s = .ok s := by
  simp only [convertInput, hg, hi, hv, ht]

theorem convertInput_eq_sameType {P : FunctionConverter} {nid : NodeId} {idx : Nat}
    {s : ConvState} {n : Node} {v : NodeValue} {curTy : Ty} (hg : getNode s.fn nid = some n)
    (hi : n.inputs[idx]? = some v) (hv : typeOf s.fn v = some curTy)
    (ht : P.getTargetTypeForInput nid idx curTy = some curTy) :
    convertInput P nid idx s = .ok s := by
  simp [convertInput, hg, hi, hv, ht]

theorem convertInput_eq_hit {P : FunctionConverter} {nid : NodeId} {idx : Nat}
    {s : ConvState} {n : Node} {v : NodeValue} {curTy destTy : Ty} {c : NodeId}
    (hg : getNode s.fn nid = some n) (hi : n.inputs[idx]? = some v)
    (hv : typeOf s.fn v = some curTy)
    (ht : P.getTargetTypeForInput nid idx curTy = some destTy) (hne : destTy ≠ curTy)
    (hfc : findInCache s.fn s.conversions_ v destTy = some c) :
    convertInput P nid idx s
      = .ok (ConvState.mk (setInput s.fn nid idx (NodeValue.mk c 0))
          s.conversions_ s.morphed) := by
  simp only [convertInput, hg, hi, hv, ht, hfc, if_neg hne]

theorem convertInput_eq_create {P : FunctionConverter} {nid : NodeId} {idx : Nat}
    {s : ConvState} {n : Node} {v : NodeValue} {curTy destTy : Ty}
    (hg : getNode s.fn nid = some n) (hi : n.inputs[idx]? = some v)
    (hv : typeOf s.fn v = some curTy)
    (ht : P.getTargetTypeForInput nid idx curTy = some destTy) (hne : destTy ≠ curTy)
    (hfc : findInCache s.fn s.conversions_ v destTy = none)
    (hok : P.createConversionOk v destTy = true) :
    convertInput P nid idx s
      = .ok (ConvState.mk
          (setInput (insertNodeBefore s.fn nid (mkConversion s.fn.nextId v destTy)) nid idx
            (NodeValue.mk s.fn.nextId 0))
          (s.conversions_ ++ [s.fn.nextId]) s.morphed) := by
  simp only [convertInput, hg, hi, hv, ht, hfc, if_neg hne, hok, if_true]

theorem convertInput_eq_fail {P : FunctionConverter} {nid : NodeId} {idx : Nat}
    {s : ConvState} {n : Node} {v : NodeValue} {curTy destTy : Ty}
    (hg : getNode s.fn nid = some n) (hi : n.inputs[idx]? = some v)
    (hv : typeOf s.fn v = some curTy)
    (ht : P.getTargetTypeForInput nid idx curTy = some destTy) (hne : destTy ≠ curTy)
    (hfc : findInCache s.fn s.conversions_ v destTy = none)
    (hok : P.createConversionOk v destTy = false) :
    convertInput P nid idx s = .error s := by
  simp [convertInput, hg, hi, hv, ht, hfc, hne, hok]

/-! Equation lemmas: the branches of `convertOutput`. -/

theorem convertOutput_eq_noNode {P : FunctionConverter} {nid : NodeId} {o : Nat}
    {s : ConvState} (hg : getNode s.fn nid = none) : convertOutput P nid o s = .ok s := by
  simp only [convertOutput, hg]

theorem convertOutput_eq_noSlot {P : FunctionConverter} {nid : NodeId} {o : Nat}
    {s : ConvState} {n : Node} (hg : getNode s.fn nid = some n)
    (ho : n.outTypes[o]? = none) : convertOutput P nid o s = .ok s := by
  simp only [convertOutput, hg, ho]

theorem convertOutput_eq_noTarget {P : FunctionConverter} {nid : NodeId} {o : Nat}
    {s : ConvState} {n : Node} {curTy : Ty} (hg : getNode s.fn nid = some n)
    (ho : n.outTypes[o]? = some curTy)
    (ht : P.getTargetTypeForOutput (NodeValue.mk nid o) curTy = none) :
    convertOutput P nid o s = .ok s := by
  simp only [convertOutput, hg, ho, ht]

theorem convertOutput_eq_sameType {P : FunctionConverter} {nid : NodeId} {o : Nat}
    {s : ConvState} {n : Node} {curTy : Ty} (hg : getNode s.fn nid = some n)
    (ho : n.outTypes[o]? = some curTy)
    (ht : P.getTargetTypeForOutput (NodeValue.mk nid o) curTy = some curTy) :
    convertOutput P nid o s = .ok s := by
  simp [convertOutput, hg, ho, ht]

theorem convertOutput_eq_hit {P : FunctionConverter} {nid : NodeId} {o : Nat}
    {s : ConvState} {n : Node} {curTy destTy : Ty} {c : NodeId}
    (hg : getNode s.fn nid = some n) (ho : n.outTypes[o]? = some curTy)
    (ht : P.getTargetTypeForOutput (NodeValue.mk nid o) curTy = some destTy)
    (hne : destTy ≠ curTy)
    (hfc : findInCache (setOutType s.fn nid o destTy) s.conversions_
      (NodeValue.mk nid o) curTy = some c) :
    convertOutput P nid o s
      = .ok (ConvState.mk
          (redirectListed (setOutType s.fn nid o destTy)
            (usersOf s.fn (NodeValue.mk nid o)) (NodeValue.mk nid o) (NodeValue.mk c 0))
          s.conversions_ s.morphed) := by
  simp only [convertOutput, hg, ho, ht, hfc, if_neg hne]

theorem convertOutput_eq_create {P : FunctionConverter} {nid : NodeId} {o : Nat}
    {s : ConvState} {n : Node} {curTy destTy : Ty}
    (hg : getNode s.fn nid = some n) (ho : n.outTypes[o]? = some curTy)
    (ht : P.getTargetTypeForOutput (NodeValue.mk nid o) curTy = some destTy)
    (hne : destTy ≠ curTy)
    (hfc : findInCache (setOutType s.fn nid o destTy) s.conversions_
      (NodeValue.mk nid o) curTy = none)
    (hok : P.createConversionOk (NodeValue.mk nid o) curTy = true) :
    convertOutput P nid o s = .ok (outputCreateState s nid o curTy destTy) := by
  simp only [convertOutput, outputCreateState, hg, ho, ht, hfc, if_neg hne, hok, if_true,
    nextId_setOutType]

theorem convertOutput_eq_fail {P : FunctionConverter} {nid : NodeId} {o : Nat}
    {s : ConvState} {n : Node} {curTy destTy : Ty}
    (hg : getNode s.fn nid = some n) (ho : n.outTypes[o]? = some curTy)
    (ht : P.getTargetTypeForOutput (NodeValue.mk nid o) curTy = some destTy)
    (hne : destTy ≠ curTy)
    (hfc : findInCache (setOutType s.fn nid o destTy) s.conversions_
      (NodeValue.mk nid o) curTy = none)
    (hok : P.createConversionOk (NodeValue.mk nid o) curTy = false) :
    convertOutput P nid o s
      = .error (ConvState.mk (setOutType s.fn nid o destTy) s.conversions_ s.morphed) := by
  simp [convertOutput, hg, ho, ht, hfc, hne, hok]


theorem convSrc_eq (f : Function) (c : NodeId) :
    convSrc f c = (getNode f c).bind fun n => n.inputs[0]? := rfl

theorem convDst_eq (f : Function) (c : NodeId) :
    convDst f c = (getNode f c).bind fun n => n.outTypes[0]? := rfl

theorem cid_fresh_ids {f0 : Function} {s : ConvState} (hinv : Inv f0 s) :
    s.fn.nextId ∉ s.fn.nodes.map Node.id := by
  intro hmem
  obtain ⟨m, hm, he⟩ := List.mem_map.1 hmem
  exact absurd (he ▸ hinv.ids_lt m hm) (Nat.lt_irrefl _)

theorem Inv.setInput_cached {f0 : Function} {s : ConvState} (hinv : Inv f0 s)
    {nid : NodeId} {idx : Nat} {c : NodeId} (hnid : nid < f0.nextId)
    (hc : c ∈ s.conversions_) :
    Inv f0 (ConvState.mk (setInput s.fn nid idx (NodeValue.mk c 0))
      s.conversions_ s.morphed) := by
  have hclt : c < s.fn.nextId := (hinv.cache_bounds hc).2
  have hcge : f0.nextId ≤ c := (hinv.cache_bounds hc).1
  have hcnid : c ≠ nid := by
    intro he
    subst he
    exact absurd (Nat.lt_of_lt_of_le hnid hcge) (Nat.lt_irrefl _)
  refine ⟨?_, ?_, ?_, ?_, ?_, ?_, ?_, ?_⟩
  · intro m hm
    obtain ⟨n, hn, he⟩ := mem_nodes_updateNode hm
    subst he
    show _ < (setInput s.fn nid idx (NodeValue.mk c 0)).nextId
    rw [nextId_setInput]
    split
    · exact hinv.ids_lt n hn
    · exact hinv.ids_lt n hn
  · show ((setInput s.fn nid idx _).nodes.map Node.id).Nodup
    rw [idsMap_setInput]
    exact hinv.ids_nodup
  · intro m hm w hw
    obtain ⟨n, hn, he⟩ := mem_nodes_updateNode hm
    subst he
    show _ < (setInput s.fn nid idx (NodeValue.mk c 0)).nextId
    rw [nextId_setInput]
    split at hw
    · rcases List.mem_or_eq_of_mem_set hw with hw2 | rfl
      · exact hinv.inputs_lt n hn w hw2
      · exact hclt
    · exact hinv.inputs_lt n hn w hw
  · exact hinv.base_le
  · intro x n hx
    obtain ⟨m, hm⟩ := hinv.orig_present x n hx
    have : (getNode (setInput s.fn nid idx (NodeValue.mk c 0)) x).isSome := by
      rw [setInput]
      exact getNode_isSome_updateNode (fun _ => rfl) (by rw [getNode, hm]; rfl)
    exact Option.isSome_iff_exists.1 this
  · show s.conversions_ = List.range' f0.nextId ((setInput s.fn nid idx _).nextId - f0.nextId)
    rw [nextId_setInput]
    exact hinv.cache_range
  · intro c2 hc2
    obtain ⟨srcv, dstTy, srcTy, hlk, hty, hne2⟩ := hinv.cache_conv c2 hc2
    have hc2nid : c2 ≠ nid := by
      intro he
      subst he
      exact absurd (hinv.cache_bounds hc2).1 (Nat.not_le_of_lt hnid)
    refine ⟨srcv, dstTy, srcTy, ?_, ?_, hne2⟩
    · show getNode (setInput s.fn nid idx _) c2 = _
      rw [getNode_setInput_ne hc2nid]
      exact hlk
    · rw [typeOf_setInput]
      exact hty
  · refine hinv.cache_keys.imp_of_mem ?_
    intro a b ha hb hr
    have hanid : a ≠ nid := fun he => absurd (he ▸ (hinv.cache_bounds ha).1)
      (Nat.not_le_of_lt hnid)
    have hbnid : b ≠ nid := fun he => absurd (he ▸ (hinv.cache_bounds hb).1)
      (Nat.not_le_of_lt hnid)
    rw [convSrc_eq, convSrc_eq, convDst_eq, convDst_eq, getNode_setInput_ne hanid,
      getNode_setInput_ne hbnid]
    exact hr

theorem Inv.inputCreate {f0 : Function} {s : ConvState} (hinv : Inv f0 s)
    {nid : NodeId} {idx : Nat} {n : Node} {v : NodeValue} {curTy destTy : Ty}
    (hnid : nid < f0.nextId)
    (hg : getNode s.fn nid = some n) (hi : n.inputs[idx]? = some v)
    (hv : typeOf s.fn v = some curTy) (hne : destTy ≠ curTy)
    (hfc : findInCache s.fn s.conversions_ v destTy = none) :
    Inv f0 (ConvState.mk
      (setInput (insertNodeBefore s.fn nid (mkConversion s.fn.nextId v destTy)) nid idx
        (NodeValue.mk s.fn.nextId 0))
      (s.conversions_ ++ [s.fn.nextId]) s.morphed) := by
  have hvn : v.node < s.fn.nextId :=
    hinv.inputs_lt n (lookupN_mem hg) v (List.getElem?_mem hi)
  have hnidlt : nid < s.fn.nextId := Nat.lt_of_lt_of_le hnid hinv.base_le
  have hnidcid : nid ≠ s.fn.nextId := Nat.ne_of_lt hnidlt
  have hfr : ∀ m ∈ s.fn.nodes, m.id ≠ (mkConversion s.fn.nextId v destTy).id := by
    intro m hm
    exact Nat.ne_of_lt (hinv.ids_lt m hm)
  have hlkc : getNode (insertNodeBefore s.fn nid (mkConversion s.fn.nextId v destTy))
      s.fn.nextId = some (mkConversion s.fn.nextId v destTy) :=
    getNode_insertNodeBefore_self hfr
  refine ⟨?_, ?_, ?_, ?_, ?_, ?_, ?_, ?_⟩
  · intro m hm
    obtain ⟨n2, hn2, he⟩ := mem_nodes_updateNode hm
    subst he
    show _ < (setInput _ nid idx _).nextId
    rw [nextId_setInput, nextId_insertNodeBefore]
    have hid : ∀ m2 : Node, m2 ∈ (insertNodeBefore s.fn nid
        (mkConversion s.fn.nextId v destTy)).nodes → m2.id < s.fn.nextId + 1 := by
      intro m2 hm2
      rcases mem_nodes_insertNodeBefore.1 hm2 with rfl | hm2
      · exact Nat.lt_succ_self _
      · exact Nat.lt_succ_of_lt (hinv.ids_lt m2 hm2)
    split
    · exact hid n2 hn2
    · exact hid n2 hn2
  · show ((setInput _ nid idx _).nodes.map Node.id).Nodup
    rw [idsMap_setInput]
    exact nodup_insertNodeBefore hinv.ids_nodup (cid_fresh_ids hinv)
  · intro m hm w hw
    obtain ⟨n2, hn2, he⟩ := mem_nodes_updateNode hm
    subst he
    show _ < (setInput _ nid idx _).nextId
    rw [nextId_setInput, nextId_insertNodeBefore]
    rcases mem_nodes_insertNodeBefore.1 hn2 with rfl | hn2
    · split at hw
      all_goals
        first
        | (rcases List.mem_or_eq_of_mem_set hw with hw2 | rfl
           · rcases List.mem_singleton.1 hw2 with rfl
             exact Nat.lt_succ_of_lt hvn
           · exact Nat.lt_succ_self _)
        | (rcases List.mem_singleton.1 hw with rfl
           exact Nat.lt_succ_of_lt hvn)
    · split at hw
      · rcases List.mem_or_eq_of_mem_set hw with hw2 | rfl
        · exact Nat.lt_succ_of_lt (hinv.inputs_lt n2 hn2 w hw2)
        · exact Nat.lt_succ_self _
      · exact Nat.lt_succ_of_lt (hinv.inputs_lt n2 hn2 w hw)
  · exact Nat.le_trans hinv.base_le (Nat.le_succ _)
  · intro x n2 hx
    obtain ⟨m, hm⟩ := hinv.orig_present x n2 hx
    have hxlt : x < s.fn.nextId := lookupN_id hm ▸ hinv.ids_lt m (lookupN_mem hm)
    have hxcid : x ≠ s.fn.nextId := Nat.ne_of_lt hxlt
    have h1 : getNode (insertNodeBefore s.fn nid (mkConversion s.fn.nextId v destTy)) x
        = some m := by
      rw [getNode_insertNodeBefore_ne hxcid]
      exact hm
    have : (getNode (setInput (insertNodeBefore s.fn nid (mkConversion s.fn.nextId v destTy))
        nid idx (NodeValue.mk s.fn.nextId 0)) x).isSome := by
      rw [setInput]
      exact getNode_isSome_updateNode (fun _ => rfl) (by rw [h1]; rfl)
    exact Option.isSome_iff_exists.1 this
  · show s.conversions_ ++ [s.fn.nextId]
      = List.range' f0.nextId ((setInput _ nid idx _).nextId - f0.nextId)
    rw [nextId_setInput, nextId_insertNodeBefore, Nat.succ_sub hinv.base_le,
      List.range'_1_concat, Nat.add_sub_cancel' hinv.base_le, hinv.cache_range]
  · intro c2 hc2
    rcases List.mem_append.1 hc2 with hc2 | hc2
    · obtain ⟨srcv, dstTy, srcTy, hlk, hty, hne2⟩ := hinv.cache_conv c2 hc2
      have hc2lt : c2 < s.fn.nextId := (hinv.cache_bounds hc2).2
      have hc2nid : c2 ≠ nid := fun he => absurd (he ▸ (hinv.cache_bounds hc2).1)
        (Nat.not_le_of_lt hnid)
      have hc2cid : c2 ≠ s.fn.nextId := Nat.ne_of_lt hc2lt
      have hsrcn : srcv.node < s.fn.nextId := by
        refine hinv.inputs_lt _ (lookupN_mem hlk) srcv ?_
        simp
      refine ⟨srcv, dstTy, srcTy, ?_, ?_, hne2⟩
      · show getNode (setInput _ nid idx _) c2 = _
        rw [getNode_setInput_ne hc2nid, getNode_insertNodeBefore_ne hc2cid]
        exact hlk
      · rw [typeOf_setInput, typeOf_insertNodeBefore_ne (Nat.ne_of_lt hsrcn)]
        exact hty
    · rcases List.mem_singleton.1 hc2 with rfl
      refine ⟨v, destTy, curTy, ?_, ?_, hne⟩
      · show getNode (setInput _ nid idx _) s.fn.nextId = _
        rw [getNode_setInput_ne (Ne.symm hnidcid)]
        exact hlkc
      · rw [typeOf_setInput, typeOf_insertNodeBefore_ne (Nat.ne_of_lt hvn)]
        exact hv
  · rw [List.pairwise_append]
    have hkeys : ∀ c2 ∈ s.conversions_,
        convSrc (setInput (insertNodeBefore s.fn nid (mkConversion s.fn.nextId v destTy))
            nid idx (NodeValue.mk s.fn.nextId 0)) c2 = convSrc s.fn c2 ∧
        convDst (setInput (insertNodeBefore s.fn nid (mkConversion s.fn.nextId v destTy))
            nid idx (NodeValue.mk s.fn.nextId 0)) c2 = convDst s.fn c2 := by
      intro c2 hc2
      have hc2nid : c2 ≠ nid := fun he => absurd (he ▸ (hinv.cache_bounds hc2).1)
        (Nat.not_le_of_lt hnid)
      have hc2cid : c2 ≠ s.fn.nextId := Nat.ne_of_lt (hinv.cache_bounds hc2).2
      constructor
      · rw [convSrc_eq, convSrc_eq, getNode_setInput_ne hc2nid,
          getNode_insertNodeBefore_ne hc2cid]
      · rw [convDst_eq, convDst_eq, getNode_setInput_ne hc2nid,
          getNode_insertNodeBefore_ne hc2cid]
    refine ⟨hinv.cache_keys.imp_of_mem ?_, List.pairwise_singleton _ _, ?_⟩
    · intro a b ha hb hr
      rw [(hkeys a ha).1, (hkeys a ha).2, (hkeys b hb).1, (hkeys b hb).2]
      exact hr
    · intro a ha b hb
      rcases List.mem_singleton.1 hb with rfl
      obtain ⟨srcv, dstTy, srcTy, hlk, hty, hne2⟩ := hinv.cache_conv a ha
      intro hcontra
      rw [(hkeys a ha).1, (hkeys a ha).2] at hcontra
      have hkb : convSrc (setInput (insertNodeBefore s.fn nid
            (mkConversion s.fn.nextId v destTy)) nid idx (NodeValue.mk s.fn.nextId 0))
            s.fn.nextId = some v ∧
          convDst (setInput (insertNodeBefore s.fn nid
            (mkConversion s.fn.nextId v destTy)) nid idx (NodeValue.mk s.fn.nextId 0))
            s.fn.nextId = some destTy := by
        constructor
        · rw [convSrc_eq, getNode_setInput_ne (Ne.symm hnidcid), hlkc]
          rfl
        · rw [convDst_eq, getNode_setInput_ne (Ne.symm hnidcid), hlkc]
          rfl
      rw [hkb.1, hkb.2] at hcontra
      have hsa : convSrc s.fn a = some srcv := by
        rw [convSrc_eq, getNode, hlk]
        rfl
      have hda : convDst s.fn a = some dstTy := by
        rw [convDst_eq, getNode, hlk]
        rfl
      rw [hsa, hda] at hcontra
      refine findInCache_none hfc a ha _ hlk ?_
      have h1 : srcv = v := by
        have := hcontra.1
        simpa using this
      have h2 : dstTy = destTy := by
        have := hcontra.2
        simpa using this
      subst h1
      subst h2
      exact ⟨rfl, rfl⟩


theorem inTypeOf_insertNodeBefore_pres {f0 : Function} {s : ConvState} (hinv : Inv f0 s)
    {t : NodeId} {c : Node} (hcid : c.id = s.fn.nextId) {x : NodeId}
    (hx : x < s.fn.nextId) (j : Nat) :
    inTypeOf (insertNodeBefore s.fn t c) x j = inTypeOf s.fn x j := by
  have hxc : x ≠ c.id := by
    rw [hcid]
    exact Nat.ne_of_lt hx
  rw [inTypeOf, inTypeOf, inputOf_insertNodeBefore_ne hxc]
  cases hio : inputOf s.fn x j with
  | none => rfl
  | some w =>
    have hw : w.node < s.fn.nextId := by
      rw [inputOf] at hio
      cases hgx : getNode s.fn x with
      | none => rw [hgx] at hio; exact absurd hio (by simp)
      | some nx =>
        rw [hgx] at hio
        simp only [Option.some_bind] at hio
        exact hinv.inputs_lt nx (lookupN_mem hgx) w (List.getElem?_mem hio)
    simp only [Option.some_bind]
    exact typeOf_insertNodeBefore_ne (by rw [hcid]; exact Nat.ne_of_lt hw)

theorem convertInput_ok_facts {f0 : Function} {P : FunctionConverter} {nid : NodeId}
    {idx : Nat} {s s2 : ConvState} (hinv : Inv f0 s) (hnid : nid < f0.nextId)
    (h : convertInput P nid idx s = .ok s2) :
    Inv f0 s2
    ∧ s.fn.nextId ≤ s2.fn.nextId
    ∧ s2.morphed = s.morphed
    ∧ (∀ x j, x < s.fn.nextId → ¬(x = nid ∧ j = idx) → inTypeOf s2.fn x j = inTypeOf s.fn x j)
    ∧ (∀ x o, x < s.fn.nextId → outTypeOf s2.fn x o = outTypeOf s.fn x o)
    ∧ (inHookIdem P → inSlotFixed P s2.fn nid idx) := by
  cases hg : getNode s.fn nid with
  | none =>
    rw [convertInput_eq_noNode hg] at h
    cases h
    refine ⟨hinv, Nat.le_refl _, rfl, fun x j _ _ => rfl, fun x o _ => rfl, ?_⟩
    intro _ t hti
    rw [inTypeOf_none_noNode hg] at hti
    exact absurd hti (by simp)
  | some n =>
  cases hi : n.inputs[idx]? with
  | none =>
    rw [convertInput_eq_noSlot hg hi] at h
    cases h
    refine ⟨hinv, Nat.le_refl _, rfl, fun x j _ _ => rfl, fun x o _ => rfl, ?_⟩
    intro _ t hti
    rw [inTypeOf_none_noSlot hg hi] at hti
    exact absurd hti (by simp)
  | some v =>
  cases hv : typeOf s.fn v with
  | none =>
    rw [convertInput_eq_noType hg hi hv] at h
    cases h
    refine ⟨hinv, Nat.le_refl _, rfl, fun x j _ _ => rfl, fun x o _ => rfl, ?_⟩
    intro _ t hti
    rw [inTypeOf_eq_typeOf hg hi, hv] at hti
    exact absurd hti (by simp)
  | some curTy =>
  cases ht : P.getTargetTypeForInput nid idx curTy with
  | none =>
    rw [convertInput_eq_noTarget hg hi hv ht] at h
    cases h
    refine ⟨hinv, Nat.le_refl _, rfl, fun x j _ _ => rfl, fun x o _ => rfl, ?_⟩
    intro _ t hti
    rw [inTypeOf_eq_typeOf hg hi, hv] at hti
    cases hti
    exact Or.inl ht
  | some destTy =>
  by_cases hne : destTy = curTy
  · subst hne
    rw [convertInput_eq_sameType hg hi hv ht] at h
    cases h
    refine ⟨hinv, Nat.le_refl _, rfl, fun x j _ _ => rfl, fun x o _ => rfl, ?_⟩
    intro _ t hti
    rw [inTypeOf_eq_typeOf hg hi, hv] at hti
    cases hti
    exact Or.inr ht
  · cases hfc : findInCache s.fn s.conversions_ v destTy with
    | some c =>
      rw [convertInput_eq_hit hg hi hv ht hne hfc] at h
      cases h
      obtain ⟨hcmem, cn, hclk, hcin, hcout⟩ := findInCache_some hfc
      have hcnid : c ≠ nid := by
        intro he
        subst he
        exact absurd (hinv.cache_bounds hcmem).1 (Nat.not_le_of_lt hnid)
      refine ⟨hinv.setInput_cached hnid hcmem, Nat.le_refl _, rfl, ?_, ?_, ?_⟩
      · intro x j _ hxj
        exact inTypeOf_setInput_pres hxj
      · intro x o _
        exact outTypeOf_setInput x o
      · intro hidem t hti
        have hio : inputOf (setInput s.fn nid idx (NodeValue.mk c 0)) nid idx
            = some (NodeValue.mk c 0) := by
          refine inputOf_setInput_self (w := v) ?_
          rw [inputOf, hg]
          simp [hi]
        rw [inTypeOf, hio] at hti
        simp only [Option.some_bind] at hti
        rw [typeOf_setInput] at hti
        rw [typeOf] at hti
        rw [getNode, hclk] at hti
        simp only [Option.some_bind] at hti
        rw [hcout] at hti
        cases hti
        exact hidem nid idx curTy destTy ht
    | none =>
      cases hok : P.createConversionOk v destTy with
      | false =>
        rw [convertInput_eq_fail hg hi hv ht hne hfc hok] at h
        cases h
      | true =>
        rw [convertInput_eq_create hg hi hv ht hne hfc hok] at h
        cases h
        have hnidlt : nid < s.fn.nextId := Nat.lt_of_lt_of_le hnid hinv.base_le
        have hnidcid : nid ≠ s.fn.nextId := Nat.ne_of_lt hnidlt
        have hvn : v.node < s.fn.nextId :=
          hinv.inputs_lt n (lookupN_mem hg) v (List.getElem?_mem hi)
        have hfr : ∀ m ∈ s.fn.nodes, m.id ≠ (mkConversion s.fn.nextId v destTy).id :=
          fun m hm => Nat.ne_of_lt (hinv.ids_lt m hm)
        have hlkc : getNode (insertNodeBefore s.fn nid (mkConversion s.fn.nextId v destTy))
            s.fn.nextId = some (mkConversion s.fn.nextId v destTy) :=
          getNode_insertNodeBefore_self hfr
        refine ⟨hinv.inputCreate hnid hg hi hv hne hfc, ?_, rfl, ?_, ?_, ?_⟩
        · show s.fn.nextId ≤ (setInput _ nid idx _).nextId
          rw [nextId_setInput, nextId_insertNodeBefore]
          exact Nat.le_succ _
        · intro x j hx hxj
          rw [inTypeOf_setInput_pres hxj]
          exact inTypeOf_insertNodeBefore_pres hinv rfl hx j
        · intro x o hx
          rw [outTypeOf_setInput]
          exact outTypeOf_insertNodeBefore_ne (Nat.ne_of_lt hx) o
        · intro hidem t hti
          have hio1 : inputOf (insertNodeBefore s.fn nid (mkConversion s.fn.nextId v destTy))
              nid idx = some v := by
            rw [inputOf_insertNodeBefore_ne hnidcid, inputOf, hg]
            simp [hi]
          have hio : inputOf (setInput (insertNodeBefore s.fn nid
              (mkConversion s.fn.nextId v destTy)) nid idx (NodeValue.mk s.fn.nextId 0))
              nid idx = some (NodeValue.mk s.fn.nextId 0) :=
            inputOf_setInput_self hio1
          rw [inTypeOf, hio] at hti
          simp only [Option.some_bind] at hti
          rw [typeOf_setInput] at hti
          have hty2 : typeOf (insertNodeBefore s.fn nid (mkConversion s.fn.nextId v destTy))
              (NodeValue.mk s.fn.nextId 0) = some destTy := by
            show (getNode (insertNodeBefore s.fn nid (mkConversion s.fn.nextId v destTy))
              s.fn.nextId).bind (fun n2 => n2.outTypes[(0 : Nat)]?) = some destTy
            rw [hlkc]
            rfl
          rw [hty2] at hti
          cases hti
          exact hidem nid idx curTy destTy ht


theorem mem_usersOf_lookup {f : Function} {v : NodeValue} {x : NodeId}
    (hnd : (f.nodes.map Node.id).Nodup) :
    x ∈ usersOf f v ↔ ∃ n, lookupN f.nodes x = some n ∧ v ∈ n.inputs := by
  rw [mem_usersOf]
  constructor
  · rintro ⟨n, hn, rfl, hv⟩
    exact ⟨n, lookupN_of_mem hnd hn, hv⟩
  · rintro ⟨n, hlk, hv⟩
    exact ⟨n, lookupN_mem hlk, lookupN_id hlk, hv⟩

theorem nodeValue_ne {w : NodeValue} {a : NodeId} {b : Nat} (hw : w ≠ NodeValue.mk a b) :
    ¬(w.node = a ∧ w.resNo = b) := by
  rintro ⟨h1, h2⟩
  apply hw
  cases w
  cases h1
  cases h2
  rfl


theorem typeOf_nidSlot {f : Function} {nid : NodeId} {o : Nat} {n : Node} {curTy : Ty}
    (hg : getNode f nid = some n) (ho : n.outTypes[o]? = some curTy) :
    typeOf f (NodeValue.mk nid o) = some curTy := by
  show (getNode f nid).bind (fun n2 => n2.outTypes[(o : Nat)]?) = some curTy
  rw [hg]
  simp [ho]

theorem Inv.outputCreate {f0 : Function} {s : ConvState} (hinv : Inv f0 s)
    {nid : NodeId} {o : Nat} {n : Node} {curTy destTy : Ty}
    (hnid : nid < f0.nextId)
    (hg : getNode s.fn nid = some n) (ho : n.outTypes[o]? = some curTy)
    (hne : destTy ≠ curTy) :
    Inv f0 (outputCreateState s nid o curTy destTy) := by
  have hv : typeOf s.fn (NodeValue.mk nid o) = some curTy := typeOf_nidSlot hg ho
  have hnidlt : nid < s.fn.nextId := Nat.lt_of_lt_of_le hnid hinv.base_le
  have hnidcid : nid ≠ s.fn.nextId := Nat.ne_of_lt hnidlt
  have hfr1 : ∀ m ∈ (setOutType s.fn nid o destTy).nodes,
      m.id ≠ (mkConversion s.fn.nextId (NodeValue.mk nid o) curTy).id := by
    intro m hm
    obtain ⟨n2, hn2, he⟩ := mem_nodes_updateNode hm
    subst he
    show (if n2.id = nid then _ else n2).id ≠ s.fn.nextId
    split
    · exact Nat.ne_of_lt (hinv.ids_lt n2 hn2)
    · exact Nat.ne_of_lt (hinv.ids_lt n2 hn2)
  have hlkc2 : getNode (insertNodeAfter (setOutType s.fn nid o destTy) nid
      (mkConversion s.fn.nextId (NodeValue.mk nid o) curTy)) s.fn.nextId
      = some (mkConversion s.fn.nextId (NodeValue.mk nid o) curTy) :=
    getNode_insertNodeAfter_self hfr1
  have hcidus : s.fn.nextId ∉ usersOf s.fn (NodeValue.mk nid o) := by
    intro hmem
    obtain ⟨m, hm, he⟩ := usersOf_sub hmem
    exact absurd (he ▸ hinv.ids_lt m hm) (Nat.lt_irrefl _)
  have hlks2 : getNode (outputCreateState s nid o curTy destTy).fn s.fn.nextId
      = some (mkConversion s.fn.nextId (NodeValue.mk nid o) curTy) := by
    show getNode (redirectListed _ _ _ _) _ = _
    rw [getNode_redirectListed_notmem hcidus]
    exact hlkc2
  have hus : ∀ x, x ∈ usersOf s.fn (NodeValue.mk nid o) ↔
      ∃ nx, lookupN s.fn.nodes x = some nx ∧ NodeValue.mk nid o ∈ nx.inputs :=
    fun x => mem_usersOf_lookup hinv.ids_nodup
  -- type of the fresh conversion's output, and of other values, in the new graph
  have hty_cid : typeOf (outputCreateState s nid o curTy destTy).fn
      (NodeValue.mk s.fn.nextId 0) = some curTy := by
    show (getNode (outputCreateState s nid o curTy destTy).fn s.fn.nextId).bind
      (fun n2 => n2.outTypes[(0 : Nat)]?) = some curTy
    rw [hlks2]
    rfl
  have hty_v : typeOf (outputCreateState s nid o curTy destTy).fn (NodeValue.mk nid o)
      = some destTy := by
    show typeOf (redirectListed _ _ _ _) _ = _
    rw [typeOf_redirectListed, typeOf_insertNodeAfter_ne hnidcid, typeOf_setOutType_self hv]
  have hty_w : ∀ w : NodeValue, w ≠ NodeValue.mk nid o → w.node < s.fn.nextId →
      typeOf (outputCreateState s nid o curTy destTy).fn w = typeOf s.fn w := by
    intro w hwv hwlt
    show typeOf (redirectListed _ _ _ _) _ = _
    rw [typeOf_redirectListed, typeOf_insertNodeAfter_ne (Nat.ne_of_lt hwlt),
      typeOf_setOutType_pres (nodeValue_ne hwv)]
  -- lookups of the old cache nodes in the new graph
  have hkey : ∀ c2 ∈ s.conversions_, ∃ srcv dstTy srcTy,
      lookupN s.fn.nodes c2 = some (Node.mk c2 [srcv] [dstTy]) ∧
      typeOf s.fn srcv = some srcTy ∧ dstTy ≠ srcTy ∧ srcv.node < s.fn.nextId ∧
      lookupN (outputCreateState s nid o curTy destTy).fn.nodes c2
        = some (Node.mk c2
            [if srcv = NodeValue.mk nid o then NodeValue.mk s.fn.nextId 0 else srcv]
            [dstTy]) := by
    intro c2 hc2
    obtain ⟨srcv, dstTy, srcTy, hlk, hty, hned⟩ := hinv.cache_conv c2 hc2
    have hc2nid : c2 ≠ nid := by
      intro he
      subst he
      exact absurd (hinv.cache_bounds hc2).1 (Nat.not_le_of_lt hnid)
    have hc2cid : c2 ≠ s.fn.nextId := Nat.ne_of_lt (hinv.cache_bounds hc2).2
    have hsrclt : srcv.node < s.fn.nextId := by
      refine hinv.inputs_lt _ (lookupN_mem hlk) srcv ?_
      simp
    have hlkf2 : getNode (insertNodeAfter (setOutType s.fn nid o destTy) nid
        (mkConversion s.fn.nextId (NodeValue.mk nid o) curTy)) c2
        = some (Node.mk c2 [srcv] [dstTy]) := by
      rw [getNode_insertNodeAfter_ne hc2cid, getNode_setOutType_ne hc2nid]
      exact hlk
    refine ⟨srcv, dstTy, srcTy, hlk, hty, hned, hsrclt, ?_⟩
    by_cases hsv : srcv = NodeValue.mk nid o
    · have hmem : c2 ∈ usersOf s.fn (NodeValue.mk nid o) := by
        rw [hus]
        exact ⟨_, hlk, by simp [hsv]⟩
      have := @getNode_redirectListed_mem (insertNodeAfter (setOutType s.fn nid o destTy)
        nid (mkConversion s.fn.nextId (NodeValue.mk nid o) curTy))
        (usersOf s.fn (NodeValue.mk nid o)) (NodeValue.mk nid o)
        (NodeValue.mk s.fn.nextId 0) c2 hmem
      show getNode (redirectListed _ _ _ _) c2 = _
      rw [this, hlkf2]
      simp [hsv]
    · have hmem : c2 ∉ usersOf s.fn (NodeValue.mk nid o) := by
        rw [hus]
        rintro ⟨nx, hnx, hvin⟩
        rw [hlk] at hnx
        cases hnx
        simp at hvin
        exact hsv hvin.symm
      show getNode (redirectListed _ _ _ _) c2 = _
      rw [getNode_redirectListed_notmem hmem, hlkf2]
      simp [hsv]
  refine ⟨?_, ?_, ?_, ?_, ?_, ?_, ?_, ?_⟩
  · intro m hm
    obtain ⟨n2, hn2, he⟩ := mem_nodes_redirectListed hm
    subst he
    show _ < (redirectListed _ _ _ _).nextId
    rw [nextId_redirectListed, nextId_insertNodeAfter, nextId_setOutType]
    have hbase : ∀ m2 : Node, m2 ∈ (insertNodeAfter (setOutType s.fn nid o destTy) nid
        (mkConversion s.fn.nextId (NodeValue.mk nid o) curTy)).nodes →
        m2.id < s.fn.nextId + 1 := by
      intro m2 hm2
      rcases mem_nodes_insertNodeAfter.1 hm2 with rfl | hm2
      · exact Nat.lt_succ_self _
      · obtain ⟨n3, hn3, he3⟩ := mem_nodes_updateNode hm2
        subst he3
        split
        · exact Nat.lt_succ_of_lt (hinv.ids_lt n3 hn3)
        · exact Nat.lt_succ_of_lt (hinv.ids_lt n3 hn3)
    split
    · exact hbase n2 hn2
    · exact hbase n2 hn2
  · show ((redirectListed _ _ _ _).nodes.map Node.id).Nodup
    rw [idsMap_redirectListed]
    refine nodup_insertNodeAfter ?_ ?_
    · rw [idsMap_setOutType]
      exact hinv.ids_nodup
    · rw [idsMap_setOutType]
      exact cid_fresh_ids hinv
  · intro m hm w hw
    obtain ⟨n2, hn2, he⟩ := mem_nodes_redirectListed hm
    subst he
    show _ < (redirectListed _ _ _ _).nextId
    rw [nextId_redirectListed, nextId_insertNodeAfter, nextId_setOutType]
    have hbase : ∀ w2 : NodeValue, w2 ∈ n2.inputs → w2.node < s.fn.nextId + 1 := by
      intro w2 hw2
      rcases mem_nodes_insertNodeAfter.1 hn2 with rfl | hn2b
      · simp only [mkConversion] at hw2
        rcases List.mem_singleton.1 hw2 with rfl
        exact Nat.lt_succ_of_lt hnidlt
      · obtain ⟨n3, hn3, he3⟩ := mem_nodes_updateNode hn2b
        subst he3
        split at hw2
        · exact Nat.lt_succ_of_lt (hinv.inputs_lt n3 hn3 w2 hw2)
        · exact Nat.lt_succ_of_lt (hinv.inputs_lt n3 hn3 w2 hw2)
    split at hw
    · obtain ⟨w2, hw2, he2⟩ := List.mem_map.1 hw
      subst he2
      split
      · exact Nat.lt_succ_self _
      · exact hbase w2 hw2
    · exact hbase w hw
  · exact Nat.le_trans hinv.base_le (Nat.le_succ _)
  · intro x n2 hx
    obtain ⟨m, hm⟩ := hinv.orig_present x n2 hx
    have hxlt : x < s.fn.nextId := lookupN_id hm ▸ hinv.ids_lt m (lookupN_mem hm)
    have h1 : (getNode (setOutType s.fn nid o destTy) x).isSome := by
      rw [setOutType]
      exact getNode_isSome_updateNode (fun _ => rfl) (by rw [getNode, hm]; rfl)
    have h2 : (getNode (insertNodeAfter (setOutType s.fn nid o destTy) nid
        (mkConversion s.fn.nextId (NodeValue.mk nid o) curTy)) x).isSome := by
      rw [getNode_insertNodeAfter_ne (Nat.ne_of_lt hxlt)]
      exact h1
    exact Option.isSome_iff_exists.1 (getNode_isSome_redirectListed h2)
  · show s.conversions_ ++ [s.fn.nextId]
      = List.range' f0.nextId ((redirectListed _ _ _ _).nextId - f0.nextId)
    rw [nextId_redirectListed, nextId_insertNodeAfter, nextId_setOutType,
      Nat.succ_sub hinv.base_le, List.range'_1_concat,
      Nat.add_sub_cancel' hinv.base_le, hinv.cache_range]
  · intro c2 hc2
    rcases List.mem_append.1 hc2 with hc2 | hc2
    · obtain ⟨srcv, dstTy, srcTy, hlk, hty, hned, hsrclt, hlk2⟩ := hkey c2 hc2
      by_cases hsv : srcv = NodeValue.mk nid o
      · refine ⟨NodeValue.mk s.fn.nextId 0, dstTy, curTy, ?_, hty_cid, ?_⟩
        · rw [hlk2]
          simp [hsv]
        · have : srcTy = curTy := by
            rw [hsv, hv] at hty
            cases hty
            rfl
          rw [← this]
          exact hned
      · refine ⟨srcv, dstTy, srcTy, ?_, ?_, hned⟩
        · rw [hlk2]
          simp [hsv]
        · rw [hty_w srcv hsv hsrclt]
          exact hty
    · rcases List.mem_singleton.1 hc2 with rfl
      refine ⟨NodeValue.mk nid o, curTy, destTy, ?_, hty_v, fun he => hne he.symm⟩
      show getNode (outputCreateState s nid o curTy destTy).fn s.fn.nextId = _
      rw [hlks2]
      rfl
  · show List.Pairwise (fun c d =>
        ¬(convSrc (outputCreateState s nid o curTy destTy).fn c
            = convSrc (outputCreateState s nid o curTy destTy).fn d ∧
          convDst (outputCreateState s nid o curTy destTy).fn c
            = convDst (outputCreateState s nid o curTy destTy).fn d))
      (s.conversions_ ++ [s.fn.nextId])
    rw [List.pairwise_append]
    have hsrcS : ∀ c2 ∈ s.conversions_, ∀ srcv dstTy,
        lookupN (outputCreateState s nid o curTy destTy).fn.nodes c2
          = some (Node.mk c2 [srcv] [dstTy]) →
        convSrc (outputCreateState s nid o curTy destTy).fn c2 = some srcv ∧
        convDst (outputCreateState s nid o curTy destTy).fn c2 = some dstTy := by
      intro c2 _ srcv dstTy hlk2
      constructor
      · rw [convSrc_eq, getNode, hlk2]
        rfl
      · rw [convDst_eq, getNode, hlk2]
        rfl
    refine ⟨?_, List.pairwise_singleton _ _, ?_⟩
    · refine hinv.cache_keys.imp_of_mem ?_
      intro a b ha hb hr hcontra
      obtain ⟨srcA, dstA, tyA, hlkA, htyA, hnedA, hltA, hlk2A⟩ := hkey a ha
      obtain ⟨srcB, dstB, tyB, hlkB, htyB, hnedB, hltB, hlk2B⟩ := hkey b hb
      obtain ⟨hsA, hdA⟩ := hsrcS a ha _ _ hlk2A
      obtain ⟨hsB, hdB⟩ := hsrcS b hb _ _ hlk2B
      rw [hsA, hsB, hdA, hdB] at hcontra
      have hdsts : dstA = dstB := by
        have := hcontra.2
        simpa using this
      have hsrcs : (if srcA = NodeValue.mk nid o then NodeValue.mk s.fn.nextId 0 else srcA)
          = (if srcB = NodeValue.mk nid o then NodeValue.mk s.fn.nextId 0 else srcB) := by
        have := hcontra.1
        simpa using this
      apply hr
      have hsAo : convSrc s.fn a = some srcA := by
        rw [convSrc_eq, getNode, hlkA]
        rfl
      have hsBo : convSrc s.fn b = some srcB := by
        rw [convSrc_eq, getNode, hlkB]
        rfl
      have hdAo : convDst s.fn a = some dstA := by
        rw [convDst_eq, getNode, hlkA]
        rfl
      have hdBo : convDst s.fn b = some dstB := by
        rw [convDst_eq, getNode, hlkB]
        rfl
      rw [hsAo, hsBo, hdAo, hdBo, hdsts]
      refine ⟨?_, rfl⟩
      by_cases hA : srcA = NodeValue.mk nid o
      · by_cases hB : srcB = NodeValue.mk nid o
        · rw [hA, hB]
        · rw [if_pos hA, if_neg hB] at hsrcs
          exact absurd (congrArg NodeValue.node hsrcs.symm)
            (Nat.ne_of_lt hltB)
      · by_cases hB : srcB = NodeValue.mk nid o
        · rw [if_neg hA, if_pos hB] at hsrcs
          exact absurd (congrArg NodeValue.node hsrcs) (Nat.ne_of_lt hltA)
        · rw [if_neg hA, if_neg hB] at hsrcs
          rw [hsrcs]
    · intro a ha b hb
      rcases List.mem_singleton.1 hb with rfl
      obtain ⟨srcA, dstA, tyA, hlkA, htyA, hnedA, hltA, hlk2A⟩ := hkey a ha
      obtain ⟨hsA, hdA⟩ := hsrcS a ha _ _ hlk2A
      intro hcontra
      rw [hsA] at hcontra
      have hsCid : convSrc (outputCreateState s nid o curTy destTy).fn s.fn.nextId
          = some (NodeValue.mk nid o) := by
        rw [convSrc_eq, hlks2]
        rfl
      rw [hsCid] at hcontra
      have := hcontra.1
      by_cases hA : srcA = NodeValue.mk nid o
      · rw [if_pos hA] at this
        have h2 := congrArg NodeValue.node (Option.some_injective _ this)
        exact absurd h2.symm hnidcid
      · rw [if_neg hA] at this
        exact hA (Option.some_injective _ this)


theorem outputCreate_convNode {f0 : Function} {s : ConvState} (hinv : Inv f0 s)
    {nid : NodeId} {o : Nat} {curTy destTy : Ty} (_hnidlt : nid < s.fn.nextId) :
    getNode (outputCreateState s nid o curTy destTy).fn s.fn.nextId
      = some (mkConversion s.fn.nextId (NodeValue.mk nid o) curTy) := by
  have hfr1 : ∀ m ∈ (setOutType s.fn nid o destTy).nodes,
      m.id ≠ (mkConversion s.fn.nextId (NodeValue.mk nid o) curTy).id := by
    intro m hm
    obtain ⟨n2, hn2, he⟩ := mem_nodes_updateNode hm
    subst he
    show (if n2.id = nid then _ else n2).id ≠ s.fn.nextId
    split
    · exact Nat.ne_of_lt (hinv.ids_lt n2 hn2)
    · exact Nat.ne_of_lt (hinv.ids_lt n2 hn2)
  have hcidus : s.fn.nextId ∉ usersOf s.fn (NodeValue.mk nid o) := by
    intro hmem
    obtain ⟨m, hm, he⟩ := usersOf_sub hmem
    exact absurd (he ▸ hinv.ids_lt m hm) (Nat.lt_irrefl _)
  show getNode (redirectListed _ _ _ _) _ = _
  rw [getNode_redirectListed_notmem hcidus]
  exact getNode_insertNodeAfter_self hfr1

theorem outputCreate_typeOf_cid {f0 : Function} {s : ConvState} (hinv : Inv f0 s)
    {nid : NodeId} {o : Nat} {curTy destTy : Ty} (hnidlt : nid < s.fn.nextId) :
    typeOf (outputCreateState s nid o curTy destTy).fn (NodeValue.mk s.fn.nextId 0)
      = some curTy := by
  show (getNode (outputCreateState s nid o curTy destTy).fn s.fn.nextId).bind
    (fun n2 => n2.outTypes[(0 : Nat)]?) = some curTy
  rw [outputCreate_convNode hinv hnidlt]
  rfl

theorem outputCreate_typeOf_pres {s : ConvState} {nid : NodeId} {o : Nat}
    {curTy destTy : Ty} {w : NodeValue} (hwv : w ≠ NodeValue.mk nid o)
    (hwlt : w.node < s.fn.nextId) :
    typeOf (outputCreateState s nid o curTy destTy).fn w = typeOf s.fn w := by
  show typeOf (redirectListed _ _ _ _) _ = _
  rw [typeOf_redirectListed, typeOf_insertNodeAfter_ne (Nat.ne_of_lt hwlt),
    typeOf_setOutType_pres (nodeValue_ne hwv)]

theorem inTypeOf_outputCreate_pres {f0 : Function} {s : ConvState} (hinv : Inv f0 s)
    {nid : NodeId} {o : Nat} {n : Node} {curTy destTy : Ty}
    (hnid : nid < f0.nextId) (hg : getNode s.fn nid = some n)
    (ho : n.outTypes[o]? = some curTy) {x : NodeId} (hx : x < s.fn.nextId) (j : Nat) :
    inTypeOf (outputCreateState s nid o curTy destTy).fn x j = inTypeOf s.fn x j := by
  have hnidlt : nid < s.fn.nextId := Nat.lt_of_lt_of_le hnid hinv.base_le
  have hxcid : x ≠ s.fn.nextId := Nat.ne_of_lt hx
  have hio12 : inputOf (insertNodeAfter (setOutType s.fn nid o destTy) nid
      (mkConversion s.fn.nextId (NodeValue.mk nid o) curTy)) x j = inputOf s.fn x j := by
    rw [inputOf_insertNodeAfter_ne hxcid, inputOf_setOutType]
  have hwfact : ∀ w : NodeValue, inputOf s.fn x j = some w → w.node < s.fn.nextId := by
    intro w hio
    rw [inputOf] at hio
    cases hgx : getNode s.fn x with
    | none => rw [hgx] at hio; exact absurd hio (by simp)
    | some nx =>
      rw [hgx] at hio
      simp only [Option.some_bind] at hio
      exact hinv.inputs_lt nx (lookupN_mem hgx) w (List.getElem?_mem hio)
  by_cases hxus : x ∈ usersOf s.fn (NodeValue.mk nid o)
  · rw [inTypeOf, inTypeOf]
    show (inputOf (redirectListed _ _ _ _) x j).bind _ = _
    rw [inputOf_redirectListed_mem hxus, hio12]
    cases hio : inputOf s.fn x j with
    | none => rfl
    | some w =>
      simp only [Option.map_some', Option.some_bind]
      by_cases hwv : w = NodeValue.mk nid o
      · rw [if_pos hwv, outputCreate_typeOf_cid hinv hnidlt, hwv,
          typeOf_nidSlot hg ho]
      · rw [if_neg hwv]
        exact outputCreate_typeOf_pres hwv (hwfact w hio)
  · rw [inTypeOf, inTypeOf]
    show (inputOf (redirectListed _ _ _ _) x j).bind _ = _
    rw [inputOf_redirectListed_notmem hxus, hio12]
    cases hio : inputOf s.fn x j with
    | none => rfl
    | some w =>
      simp only [Option.some_bind]
      have hwv : w ≠ NodeValue.mk nid o := by
        intro he
        subst he
        apply hxus
        rw [mem_usersOf_lookup hinv.ids_nodup]
        rw [inputOf] at hio
        cases hgx : getNode s.fn x with
        | none => rw [hgx] at hio; exact absurd hio (by simp)
        | some nx =>
          rw [hgx] at hio
          simp only [Option.some_bind] at hio
          exact ⟨nx, hgx, List.getElem?_mem hio⟩
      exact outputCreate_typeOf_pres hwv (hwfact w hio)

theorem outTypeOf_outputCreate_pres {s : ConvState} {nid : NodeId} {o : Nat}
    {curTy destTy : Ty} {x : NodeId} {o2 : Nat} (hx : x < s.fn.nextId)
    (hxo : ¬(x = nid ∧ o2 = o)) :
    outTypeOf (outputCreateState s nid o curTy destTy).fn x o2 = outTypeOf s.fn x o2 := by
  show outTypeOf (redirectListed _ _ _ _) _ _ = _
  rw [outTypeOf_redirectListed, outTypeOf_insertNodeAfter_ne (Nat.ne_of_lt hx),
    outTypeOf_setOutType_pres hxo]

theorem outputCreate_outTypeOf_self {f0 : Function} {s : ConvState} (hinv : Inv f0 s)
    {nid : NodeId} {o : Nat} {n : Node} {curTy destTy : Ty}
    (hnid : nid < f0.nextId) (hg : getNode s.fn nid = some n)
    (ho : n.outTypes[o]? = some curTy) :
    outTypeOf (outputCreateState s nid o curTy destTy).fn nid o = some destTy := by
  have hnidlt : nid < s.fn.nextId := Nat.lt_of_lt_of_le hnid hinv.base_le
  have hnidcid : nid ≠ s.fn.nextId := Nat.ne_of_lt hnidlt
  have hb : o < n.outTypes.length := by
    by_contra hb
    rw [List.getElem?_eq_none (Nat.le_of_not_lt hb)] at ho
    exact absurd ho (by simp)
  show outTypeOf (redirectListed _ _ _ _) _ _ = _
  rw [outTypeOf_redirectListed, outTypeOf_insertNodeAfter_ne hnidcid, outTypeOf,
    getNode_setOutType_self, hg]
  simp [List.getElem?_set_self hb]

theorem convertOutput_ok_facts {f0 : Function} {P : FunctionConverter} {nid : NodeId}
    {o : Nat} {s s2 : ConvState} (hinv : Inv f0 s) (hnid : nid < f0.nextId)
    (h : convertOutput P nid o s = .ok s2) :
    Inv f0 s2
    ∧ s.fn.nextId ≤ s2.fn.nextId
    ∧ s2.morphed = s.morphed
    ∧ (∀ x j, x < s.fn.nextId → inTypeOf s2.fn x j = inTypeOf s.fn x j)
    ∧ (∀ x o2, x < s.fn.nextId → ¬(x = nid ∧ o2 = o) →
        outTypeOf s2.fn x o2 = outTypeOf s.fn x o2)
    ∧ (outHookIdem P → outSlotFixed P s2.fn nid o) := by
  cases hg : getNode s.fn nid with
  | none =>
    rw [convertOutput_eq_noNode hg] at h
    cases h
    refine ⟨hinv, Nat.le_refl _, rfl, fun x j _ => rfl, fun x o2 _ _ => rfl, ?_⟩
    intro _ t hto
    rw [outTypeOf, hg] at hto
    exact absurd hto (by simp)
  | some n =>
  cases ho : n.outTypes[o]? with
  | none =>
    rw [convertOutput_eq_noSlot hg ho] at h
    cases h
    refine ⟨hinv, Nat.le_refl _, rfl, fun x j _ => rfl, fun x o2 _ _ => rfl, ?_⟩
    intro _ t hto
    rw [outTypeOf, hg] at hto
    simp only [Option.some_bind] at hto
    rw [ho] at hto
    exact absurd hto (by simp)
  | some curTy =>
  have hoto : outTypeOf s.fn nid o = some curTy := by
    rw [outTypeOf, hg]
    simp [ho]
  cases ht : P.getTargetTypeForOutput (NodeValue.mk nid o) curTy with
  | none =>
    rw [convertOutput_eq_noTarget hg ho ht] at h
    cases h
    refine ⟨hinv, Nat.le_refl _, rfl, fun x j _ => rfl, fun x o2 _ _ => rfl, ?_⟩
    intro _ t hto
    rw [hoto] at hto
    cases hto
    exact Or.inl ht
  | some destTy =>
  by_cases hne : destTy = curTy
  · subst hne
    rw [convertOutput_eq_sameType hg ho ht] at h
    cases h
    refine ⟨hinv, Nat.le_refl _, rfl, fun x j _ => rfl, fun x o2 _ _ => rfl, ?_⟩
    intro _ t hto
    rw [hoto] at hto
    cases hto
    exact Or.inr ht
  · cases hfc : findInCache (setOutType s.fn nid o destTy) s.conversions_
      (NodeValue.mk nid o) curTy with
    | some c =>
      exfalso
      obtain ⟨hcmem, cn, hclk, hcin, hcout⟩ := findInCache_some hfc
      obtain ⟨srcv, dstTy, srcTy, hlk, hty, hned⟩ := hinv.cache_conv c hcmem
      have hcnid : c ≠ nid := by
        intro he
        subst he
        exact absurd (hinv.cache_bounds hcmem).1 (Nat.not_le_of_lt hnid)
      have hsame : cn = Node.mk c [srcv] [dstTy] := by
        have h1 : getNode (setOutType s.fn nid o destTy) c = some cn := hclk
        rw [getNode_setOutType_ne hcnid] at h1
        rw [getNode, hlk] at h1
        exact (Option.some_injective _ h1).symm
      subst hsame
      simp only at hcin hcout
      have hsv : srcv = NodeValue.mk nid o := by simpa using hcin
      have hdt : dstTy = curTy := by simpa using hcout
      subst hsv
      subst hdt
      rw [typeOf_nidSlot hg ho] at hty
      cases hty
      exact hned rfl
    | none =>
      cases hok : P.createConversionOk (NodeValue.mk nid o) curTy with
      | false =>
        rw [convertOutput_eq_fail hg ho ht hne hfc hok] at h
        exact Except.noConfusion h
      | true =>
        rw [convertOutput_eq_create hg ho ht hne hfc hok] at h
        cases h
        refine ⟨hinv.outputCreate hnid hg ho hne, ?_, rfl, ?_, ?_, ?_⟩
        · show s.fn.nextId ≤ (redirectListed _ _ _ _).nextId
          rw [nextId_redirectListed, nextId_insertNodeAfter, nextId_setOutType]
          exact Nat.le_succ _
        · intro x j hx
          exact inTypeOf_outputCreate_pres hinv hnid hg ho hx j
        · intro x o2 hx hxo
          exact outTypeOf_outputCreate_pres hx hxo
        · intro hidem t hto
          rw [outputCreate_outTypeOf_self hinv hnid hg ho] at hto
          cases hto
          exact hidem (NodeValue.mk nid o) curTy destTy ht


theorem Inv.morphed_irrel {f0 : Function} {s : ConvState} (hinv : Inv f0 s)
    (m : List NodeId) : Inv f0 (ConvState.mk s.fn s.conversions_ m) :=
  ⟨hinv.ids_lt, hinv.ids_nodup, hinv.inputs_lt, hinv.base_le, hinv.orig_present,
    hinv.cache_range, hinv.cache_conv, hinv.cache_keys⟩

theorem runSteps_append {step : Nat → ConvState → Except ConvState ConvState}
    {l1 l2 : List Nat} {s : ConvState} :
    runSteps step (l1 ++ l2) s
      = match runSteps step l1 s with
        | .error e => .error e
        | .ok s1 => runSteps step l2 s1 := by
  induction l1 generalizing s with
  | nil => rfl
  | cons i is ih =>
    rw [List.cons_append, runSteps, runSteps]
    cases step i s with
    | error e => rfl
    | ok s1 => exact ih

theorem inputLoop_facts {f0 : Function} {P : FunctionConverter} {nid : NodeId}
    {l : List Nat} {s s2 : ConvState}
    (hinv : Inv f0 s) (hnid : nid < f0.nextId) (hnd : l.Nodup)
    (h : runSteps (convertInput P nid) l s = .ok s2) :
    Inv f0 s2
    ∧ s.fn.nextId ≤ s2.fn.nextId
    ∧ s2.morphed = s.morphed
    ∧ (∀ x j, x < s.fn.nextId → ¬(x = nid ∧ j ∈ l) → inTypeOf s2.fn x j = inTypeOf s.fn x j)
    ∧ (∀ x o, x < s.fn.nextId → outTypeOf s2.fn x o = outTypeOf s.fn x o)
    ∧ (inHookIdem P → ∀ j ∈ l, inSlotFixed P s2.fn nid j) := by
  induction l generalizing s with
  | nil =>
    rw [runSteps] at h
    cases h
    exact ⟨hinv, Nat.le_refl _, rfl, fun x j _ _ => rfl, fun x o _ => rfl,
      fun _ j hj => absurd hj (List.not_mem_nil j)⟩
  | cons i is ih =>
    rw [runSteps] at h
    cases hstep : convertInput P nid i s with
    | error e => rw [hstep] at h; exact Except.noConfusion h
    | ok s1 =>
      rw [hstep] at h
      obtain ⟨hinv1, hmono1, hmor1, hpresIn1, hpresOut1, hest1⟩ :=
        convertInput_ok_facts hinv hnid hstep
      obtain ⟨hinv2, hmono2, hmor2, hpresIn2, hpresOut2, hest2⟩ :=
        ih hinv1 (List.nodup_cons.1 hnd).2 h
      refine ⟨hinv2, Nat.le_trans hmono1 hmono2, by rw [hmor2, hmor1], ?_, ?_, ?_⟩
      · intro x j hx hxj
        rw [hpresIn2 x j (Nat.lt_of_lt_of_le hx hmono1)
          (fun hc => hxj ⟨hc.1, List.mem_cons_of_mem i hc.2⟩)]
        exact hpresIn1 x j hx fun hc => hxj ⟨hc.1, hc.2 ▸ List.mem_cons_self i is⟩
      · intro x o hx
        rw [hpresOut2 x o (Nat.lt_of_lt_of_le hx hmono1)]
        exact hpresOut1 x o hx
      · intro hidem j hj
        rcases List.mem_cons.1 hj with rfl | hj2
        · have hfix1 := hest1 hidem
          have hnotin : j ∉ is := (List.nodup_cons.1 hnd).1
          intro t hti
          rw [hpresIn2 nid j
            (Nat.lt_of_lt_of_le (Nat.lt_of_lt_of_le hnid hinv.base_le) hmono1)] at hti
          · exact hfix1 t hti
          · rintro ⟨-, hmem⟩
            exact hnotin hmem
        · exact hest2 hidem j hj2

theorem outputLoop_facts {f0 : Function} {P : FunctionConverter} {nid : NodeId}
    {l : List Nat} {s s2 : ConvState}
    (hinv : Inv f0 s) (hnid : nid < f0.nextId) (hnd : l.Nodup)
    (h : runSteps (convertOutput P nid) l s = .ok s2) :
    Inv f0 s2
    ∧ s.fn.nextId ≤ s2.fn.nextId
    ∧ s2.morphed = s.morphed
    ∧ (∀ x j, x < s.fn.nextId → inTypeOf s2.fn x j = inTypeOf s.fn x j)
    ∧ (∀ x o, x < s.fn.nextId → ¬(x = nid ∧ o ∈ l) → outTypeOf s2.fn x o = outTypeOf s.fn x o)
    ∧ (outHookIdem P → ∀ o ∈ l, outSlotFixed P s2.fn nid o) := by
  induction l generalizing s with
  | nil =>
    rw [runSteps] at h
    cases h
    exact ⟨hinv, Nat.le_refl _, rfl, fun x j _ => rfl, fun x o _ _ => rfl,
      fun _ o ho => absurd ho (List.not_mem_nil o)⟩
  | cons i is ih =>
    rw [runSteps] at h
    cases hstep : convertOutput P nid i s with
    | error e => rw [hstep] at h; exact Except.noConfusion h
    | ok s1 =>
      rw [hstep] at h
      obtain ⟨hinv1, hmono1, hmor1, hpresIn1, hpresOut1, hest1⟩ :=
        convertOutput_ok_facts hinv hnid hstep
      obtain ⟨hinv2, hmono2, hmor2, hpresIn2, hpresOut2, hest2⟩ :=
        ih hinv1 (List.nodup_cons.1 hnd).2 h
      refine ⟨hinv2, Nat.le_trans hmono1 hmono2, by rw [hmor2, hmor1], ?_, ?_, ?_⟩
      · intro x j hx
        rw [hpresIn2 x j (Nat.lt_of_lt_of_le hx hmono1)]
        exact hpresIn1 x j hx
      · intro x o hx hxo
        rw [hpresOut2 x o (Nat.lt_of_lt_of_le hx hmono1)
          (fun hc => hxo ⟨hc.1, List.mem_cons_of_mem i hc.2⟩)]
        exact hpresOut1 x o hx fun hc => hxo ⟨hc.1, hc.2 ▸ List.mem_cons_self i is⟩
      · intro hidem o ho
        rcases List.mem_cons.1 ho with rfl | ho2
        · have hfix1 := hest1 hidem
          have hnotin : o ∉ is := (List.nodup_cons.1 hnd).1
          intro t hto
          rw [hpresOut2 nid o
            (Nat.lt_of_lt_of_le (Nat.lt_of_lt_of_le hnid hinv.base_le) hmono1)] at hto
          · exact hfix1 t hto
          · rintro ⟨-, hmem⟩
            exact hnotin hmem
        · exact hest2 hidem o ho2

theorem convertNode_ok_facts {f0 : Function} {P : FunctionConverter} {nid : NodeId}
    {s s2 : ConvState} (hinv : Inv f0 s) (hnid : nid < f0.nextId)
    (h : convertNode P nid s = .ok s2) :
    Inv f0 s2
    ∧ s.fn.nextId ≤ s2.fn.nextId
    ∧ s2.morphed = s.morphed
        ++ (if P.canConvert nid && (getNode s.fn nid).isSome then [nid] else [])
    ∧ (∀ x j, x < s.fn.nextId → x ≠ nid → inTypeOf s2.fn x j = inTypeOf s.fn x j)
    ∧ (∀ x o, x < s.fn.nextId → x ≠ nid → outTypeOf s2.fn x o = outTypeOf s.fn x o)
    ∧ (P.canConvert nid = false → s2 = s)
    ∧ (inHookIdem P → outHookIdem P → P.canConvert nid = true →
        (∀ j, inSlotFixed P s2.fn nid j) ∧ (∀ o, outSlotFixed P s2.fn nid o)) := by
  rw [convertNode] at h
  cases hcan : P.canConvert nid with
  | false =>
    rw [hcan] at h
    simp only [Bool.false_eq_true, if_false] at h
    cases h
    refine ⟨hinv, Nat.le_refl _, by simp, fun x j _ _ => rfl, fun x o _ _ => rfl,
      fun _ => rfl, ?_⟩
    intro _ _ hcontra
    exact absurd hcontra (by simp)
  | true =>
    rw [hcan] at h
    simp only [if_true] at h
    cases hg : getNode s.fn nid with
    | none =>
      rw [hg] at h
      cases h
      refine ⟨hinv, Nat.le_refl _, by simp [hg], fun x j _ _ => rfl, fun x o _ _ => rfl,
        fun hcontra => absurd hcontra (by simp [hcan]), ?_⟩
      intro _ _ _
      constructor
      · intro j t hti
        rw [inTypeOf_none_noNode hg] at hti
        exact absurd hti (by simp)
      · intro o t hto
        rw [outTypeOf, hg] at hto
        exact absurd hto (by simp)
    | some n =>
      simp only [hg] at h
      cases hrunIn : runSteps (convertInput P nid) (List.range n.inputs.length) s with
      | error e =>
        simp only [hrunIn] at h
        exact Except.noConfusion h
      | ok s1 =>
        simp only [hrunIn] at h
        cases hrunOut : runSteps (convertOutput P nid) (List.range n.outTypes.length) s1 with
        | error e =>
          simp only [hrunOut] at h
          exact Except.noConfusion h
        | ok s1b =>
          simp only [hrunOut] at h
          cases h
          obtain ⟨hinv1, hmono1, hmor1, hpresIn1, hpresOut1, hest1⟩ :=
            inputLoop_facts hinv hnid (List.nodup_range _) hrunIn
          obtain ⟨hinv2, hmono2, hmor2, hpresIn2, hpresOut2, hest2⟩ :=
            outputLoop_facts hinv1 hnid (List.nodup_range _) hrunOut
          have hnidlt : nid < s.fn.nextId := Nat.lt_of_lt_of_le hnid hinv.base_le
          refine ⟨hinv2.morphed_irrel _, Nat.le_trans hmono1 hmono2, ?_, ?_, ?_, ?_, ?_⟩
          · show s1b.morphed ++ [nid] = _
            rw [hmor2, hmor1]
            simp [hcan, hg]
          · intro x j hx hxnid
            show inTypeOf s1b.fn x j = _
            rw [hpresIn2 x j (Nat.lt_of_lt_of_le hx hmono1)]
            exact hpresIn1 x j hx fun hc => hxnid hc.1
          · intro x o hx hxnid
            show outTypeOf s1b.fn x o = _
            rw [hpresOut2 x o (Nat.lt_of_lt_of_le hx hmono1) fun hc => hxnid hc.1]
            exact hpresOut1 x o hx
          · intro hcontra
            exact absurd hcontra (by simp)
          · intro hin hout _
            constructor
            · intro j
              show inSlotFixed P s1b.fn nid j
              by_cases hjlen : j < n.inputs.length
              · have hfix := hest1 hin j (List.mem_range.2 hjlen)
                intro t hti
                rw [hpresIn2 nid j (Nat.lt_of_lt_of_le hnidlt hmono1)] at hti
                exact hfix t hti
              · intro t hti
                rw [hpresIn2 nid j (Nat.lt_of_lt_of_le hnidlt hmono1),
                  hpresIn1 nid j hnidlt (fun hc => hjlen (List.mem_range.1 hc.2)),
                  inTypeOf_none_noSlot hg
                    (List.getElem?_eq_none (Nat.le_of_not_lt hjlen))] at hti
                exact absurd hti (by simp)
            · intro o
              show outSlotFixed P s1b.fn nid o
              by_cases holen : o < n.outTypes.length
              · exact hest2 hout o (List.mem_range.2 holen)
              · intro t hto
                rw [hpresOut2 nid o (Nat.lt_of_lt_of_le hnidlt hmono1)
                    (fun hc => holen (List.mem_range.1 hc.2)),
                  hpresOut1 nid o hnidlt] at hto
                rw [outTypeOf, hg] at hto
                simp only [Option.some_bind] at hto
                rw [List.getElem?_eq_none (Nat.le_of_not_lt holen)] at hto
                exact absurd hto (by simp)


theorem nodesLoop_facts {f0 : Function} {P : FunctionConverter} {l : List NodeId}
    {s s2 : ConvState}
    (hinv : Inv f0 s) (hl : ∀ x ∈ l, x < f0.nextId)
    (hpres : ∀ x ∈ l, (lookupN f0.nodes x).isSome) (hnd : l.Nodup)
    (h : runSteps (convertNode P) l s = .ok s2) :
    Inv f0 s2
    ∧ s.fn.nextId ≤ s2.fn.nextId
    ∧ s2.morphed = s.morphed ++ l.filter (fun x => P.canConvert x)
    ∧ (∀ x j, x < s.fn.nextId → (x ∉ l ∨ P.canConvert x = false) →
        inTypeOf s2.fn x j = inTypeOf s.fn x j)
    ∧ (∀ x o, x < s.fn.nextId → (x ∉ l ∨ P.canConvert x = false) →
        outTypeOf s2.fn x o = outTypeOf s.fn x o)
    ∧ (inHookIdem P → outHookIdem P → ∀ x ∈ l, P.canConvert x = true →
        (∀ j, inSlotFixed P s2.fn x j) ∧ (∀ o, outSlotFixed P s2.fn x o)) := by
  induction l generalizing s with
  | nil =>
    rw [runSteps] at h
    cases h
    exact ⟨hinv, Nat.le_refl _, by simp, fun x j _ _ => rfl, fun x o _ _ => rfl,
      fun _ _ x hx => absurd hx (List.not_mem_nil x)⟩
  | cons nid is ih =>
    rw [runSteps] at h
    have hnid : nid < f0.nextId := hl nid (List.mem_cons_self _ _)
    cases hstep : convertNode P nid s with
    | error e =>
      rw [hstep] at h
      exact Except.noConfusion h
    | ok s1 =>
      rw [hstep] at h
      obtain ⟨hinv1, hmono1, hmor1, hpresIn1, hpresOut1, hskip1, hest1⟩ :=
        convertNode_ok_facts hinv hnid hstep
      obtain ⟨hinv2, hmono2, hmor2, hpresIn2, hpresOut2, hest2⟩ :=
        ih hinv1 (fun x hx => hl x (List.mem_cons_of_mem _ hx))
          (fun x hx => hpres x (List.mem_cons_of_mem _ hx)) (List.nodup_cons.1 hnd).2 h
      have hpresS : (getNode s.fn nid).isSome := by
        obtain ⟨n0, hn0⟩ := Option.isSome_iff_exists.1 (hpres nid (List.mem_cons_self _ _))
        obtain ⟨m, hm⟩ := hinv.orig_present nid n0 hn0
        rw [getNode, hm]
        rfl
      have hmorstep : s1.morphed = s.morphed ++ if P.canConvert nid then [nid] else [] := by
        rw [hmor1, hpresS]
        cases P.canConvert nid <;> simp
      refine ⟨hinv2, Nat.le_trans hmono1 hmono2, ?_, ?_, ?_, ?_⟩
      · rw [hmor2, hmorstep, List.filter_cons]
        cases hcan : P.canConvert nid <;> simp
      · intro x j hx hcond
        have hcond2 : x ∉ is ∨ P.canConvert x = false := by
          rcases hcond with hnm | hfalse
          · exact Or.inl fun hmem => hnm (List.mem_cons_of_mem _ hmem)
          · exact Or.inr hfalse
        rw [hpresIn2 x j (Nat.lt_of_lt_of_le hx hmono1) hcond2]
        rcases hcond with hnm | hfalse
        · exact hpresIn1 x j hx fun he => hnm (he ▸ List.mem_cons_self _ _)
        · by_cases hxe : x = nid
          · subst hxe
            rw [hskip1 hfalse]
          · exact hpresIn1 x j hx hxe
      · intro x o hx hcond
        have hcond2 : x ∉ is ∨ P.canConvert x = false := by
          rcases hcond with hnm | hfalse
          · exact Or.inl fun hmem => hnm (List.mem_cons_of_mem _ hmem)
          · exact Or.inr hfalse
        rw [hpresOut2 x o (Nat.lt_of_lt_of_le hx hmono1) hcond2]
        rcases hcond with hnm | hfalse
        · exact hpresOut1 x o hx fun he => hnm (he ▸ List.mem_cons_self _ _)
        · by_cases hxe : x = nid
          · subst hxe
            rw [hskip1 hfalse]
          · exact hpresOut1 x o hx hxe
      · intro hin hout x hx hcan
        rcases List.mem_cons.1 hx with rfl | hx2
        · obtain ⟨hfixIn, hfixOut⟩ := hest1 hin hout hcan
          have hxlt1 : x < s1.fn.nextId :=
            Nat.lt_of_lt_of_le (Nat.lt_of_lt_of_le hnid hinv.base_le) hmono1
          have hnotin : x ∉ is := (List.nodup_cons.1 hnd).1
          constructor
          · intro j t hti
            rw [hpresIn2 x j hxlt1 (Or.inl hnotin)] at hti
            exact hfixIn j t hti
          · intro o t hto
            rw [hpresOut2 x o hxlt1 (Or.inl hnotin)] at hto
            exact hfixOut o t hto
        · exact hest2 hin hout x hx2 hcan


theorem runSteps_nil {step : Nat → ConvState → Except ConvState ConvState}
    {s : ConvState} : runSteps step [] s = .ok s := rfl

theorem runSteps_cons {step : Nat → ConvState → Except ConvState ConvState}
    {i : Nat} {rest : List Nat} {s : ConvState} :
    runSteps step (i :: rest) s
      = match step i s with
        | .error e => .error e
        | .ok s1 => runSteps step rest s1 := rfl

/-! Quiet steps: a hook returning absent leaves the state untouched. -/

theorem convertInput_quiet {P : FunctionConverter} {nid : NodeId} {idx : Nat}
    {s : ConvState} (hIn : ∀ t, P.getTargetTypeForInput nid idx t = none) :
    convertInput P nid idx s = .ok s := by
  cases hg : getNode s.fn nid with
  | none => exact convertInput_eq_noNode hg
  | some n =>
    cases hi : n.inputs[idx]? with
    | none => exact convertInput_eq_noSlot hg hi
    | some v =>
      cases hv : typeOf s.fn v with
      | none => exact convertInput_eq_noType hg hi hv
      | some curTy => exact convertInput_eq_noTarget hg hi hv (hIn curTy)

theorem convertOutput_quiet {P : FunctionConverter} {nid : NodeId} {o : Nat}
    {s : ConvState} (hOut : ∀ t, P.getTargetTypeForOutput (NodeValue.mk nid o) t = none) :
    convertOutput P nid o s = .ok s := by
  cases hg : getNode s.fn nid with
  | none => exact convertOutput_eq_noNode hg
  | some n =>
    cases ho : n.outTypes[o]? with
    | none => exact convertOutput_eq_noSlot hg ho
    | some curTy => exact convertOutput_eq_noTarget hg ho (hOut curTy)

theorem runSteps_id {step : Nat → ConvState → Except ConvState ConvState}
    (hstep : ∀ i s1, step i s1 = .ok s1) (l : List Nat) (s : ConvState) :
    runSteps step l s = .ok s := by
  induction l with
  | nil => rfl
  | cons i is ih =>
    rw [runSteps, hstep i s]
    exact ih

theorem convertNode_quiet {P : FunctionConverter} {nid : NodeId} {s : ConvState}
    (hIn : ∀ idx t, P.getTargetTypeForInput nid idx t = none)
    (hOut : ∀ o t, P.getTargetTypeForOutput (NodeValue.mk nid o) t = none) :
    convertNode P nid s = .ok s ∨
    convertNode P nid s = .ok (ConvState.mk s.fn s.conversions_ (s.morphed ++ [nid])) := by
  rw [convertNode]
  cases hcan : P.canConvert nid with
  | false => exact Or.inl (by simp)
  | true =>
    simp only [if_true]
    cases hg : getNode s.fn nid with
    | none =>
      simp only [hg]
      exact Or.inl trivial
    | some n =>
      simp only [hg, runSteps_id (fun i s1 => convertInput_quiet (hIn i)),
        runSteps_id (fun i s1 => convertOutput_quiet (hOut i))]
      exact Or.inr trivial

theorem nodesLoop_quiet {P : FunctionConverter} {l : List NodeId} {s : ConvState}
    (hq : ∀ x ∈ l, (∀ idx t, P.getTargetTypeForInput x idx t = none) ∧
      (∀ o t, P.getTargetTypeForOutput (NodeValue.mk x o) t = none)) :
    ∃ m, runSteps (convertNode P) l s = .ok (ConvState.mk s.fn s.conversions_ m) := by
  induction l generalizing s with
  | nil => exact ⟨s.morphed, rfl⟩
  | cons x xs ih =>
    have hx := hq x (List.mem_cons_self _ _)
    have htail : ∀ y ∈ xs, (∀ idx t, P.getTargetTypeForInput y idx t = none) ∧
        (∀ o t, P.getTargetTypeForOutput (NodeValue.mk y o) t = none) :=
      fun y hy => hq y (List.mem_cons_of_mem _ hy)
    rcases convertNode_quiet hx.1 hx.2 with hstep | hstep
    · rw [runSteps, hstep]
      exact ih htail
    · rw [runSteps, hstep]
      obtain ⟨m, hm⟩ := ih (s := ConvState.mk s.fn s.conversions_ (s.morphed ++ [x])) htail
      exact ⟨m, hm⟩

/-- C4: if every policy hook returns the absent sentinel for every value and
input slot, `convert` leaves the graph structurally unchanged - the resulting
function is the bound function itself (no node inserted, no output type
mutated, no consumer rewired) and no conversion is recorded; only the
bookkeeping trace of visited nodes is produced. -/
theorem c4_noop_stability {P : FunctionConverter} {f : Function}
    (hIn : ∀ x j t, P.getTargetTypeForInput x j t = none)
    (hOut : ∀ v t, P.getTargetTypeForOutput v t = none) :
    ∃ m, convert P f = .ok (ConvState.mk f [] m) := by
  rw [convert]
  exact nodesLoop_quiet fun x _ => ⟨fun idx t => hIn x idx t, fun o t => hOut _ t⟩

/-- Witness for C4 at a concrete graph and the all-absent policy. -/
theorem c4_noop_stability_witness :
    ∃ m, convert exQuiet_pol exDedup_fn = .ok (ConvState.mk exDedup_fn [] m) :=
  c4_noop_stability (fun _ _ _ => rfl) (fun _ _ => rfl)

/-- C1: after a successful `convert` on a well-formed graph whose two
target-type hooks obey their contract (idempotence against already-converted
types), every node of the pre-pass snapshot accepted by `canConvert` is at a
fixed point: the input hook applied to the final type of each of its input
values, and the output hook applied to the final type of each of its output
values, returns the absent sentinel or that very type - no further conversion
would be requested. -/
theorem c1_well_typedness {P : FunctionConverter} {f : Function} {s : ConvState}
    (hwf : WFF f) (hin : inHookIdem P) (hout : outHookIdem P)
    (hok : convert P f = .ok s) :
    ∀ x ∈ f.nodes.map Node.id, P.canConvert x = true →
      (∀ j t, inTypeOf s.fn x j = some t →
        P.getTargetTypeForInput x j t = none ∨ P.getTargetTypeForInput x j t = some t) ∧
      (∀ o t, outTypeOf s.fn x o = some t →
        P.getTargetTypeForOutput (NodeValue.mk x o) t = none ∨
          P.getTargetTypeForOutput (NodeValue.mk x o) t = some t) := by
  intro x hx hcan
  rw [convert] at hok
  have hl : ∀ y ∈ f.nodes.map Node.id, y < f.nextId := by
    intro y hy
    obtain ⟨m, hm, he⟩ := List.mem_map.1 hy
    exact he ▸ hwf.ids_lt m hm
  have hpres : ∀ y ∈ f.nodes.map Node.id, (lookupN f.nodes y).isSome := by
    intro y hy
    obtain ⟨m, hm, he⟩ := List.mem_map.1 hy
    rw [← he, lookupN_of_mem hwf.ids_nodup hm]
    rfl
  obtain ⟨-, -, -, -, -, hfix⟩ :=
    nodesLoop_facts (Inv.init hwf) hl hpres hwf.ids_nodup hok
  obtain ⟨hfixIn, hfixOut⟩ := hfix hin hout x hx hcan
  exact ⟨fun j => hfixIn j, fun o => hfixOut o⟩

/-- Witness for C1: in the converted dedup example, the input hook applied to
the final type (6) of node 1's input requests nothing further. -/
theorem c1_well_typedness_witness :
    exDedup_pol.getTargetTypeForInput 1 0 6 = none ∨
      exDedup_pol.getTargetTypeForInput 1 0 6 = some 6 := by
  have hidemIn : inHookIdem exDedup_pol := by
    intro x j t t2 h
    simp only [exDedup_pol] at h
    by_cases h5 : t = 5
    · rw [if_pos h5] at h
      cases h
      left
      simp [exDedup_pol]
    · rw [if_neg h5] at h
      exact absurd h (by simp)
  have hidemOut : outHookIdem exDedup_pol := by
    intro v t t2 h
    exact absurd h (by simp [exDedup_pol])
  have h := c1_well_typedness (P := exDedup_pol) (f := exDedup_fn) (s := exDedup_res)
    ⟨by decide, by decide, by decide⟩ hidemIn hidemOut rfl
  exact (h 1 (by decide) (by decide)).1 0 6 (by decide)

/-- C3: after a successful `convert` on a well-formed graph, the conversion
cache holds pairwise distinct (source value, destination type) keys - at most
one conversion node exists per distinct pair; and whenever the input step
finds a cached conversion for the requested pair, it rewires the slot to that
cached node's output and neither calls `createConversion` nor extends the
cache. -/
theorem c3_conversion_dedup {P : FunctionConverter} {f : Function} {s : ConvState}
    (hwf : WFF f) (hok : convert P f = .ok s) :
    s.conversions_.Pairwise (fun c d =>
      ¬(convSrc s.fn c = convSrc s.fn d ∧ convDst s.fn c = convDst s.fn d))
    ∧ (∀ s0 nid idx (n : Node) v curTy destTy c,
        getNode s0.fn nid = some n → n.inputs[idx]? = some v →
        typeOf s0.fn v = some curTy →
        P.getTargetTypeForInput nid idx curTy = some destTy → destTy ≠ curTy →
        findInCache s0.fn s0.conversions_ v destTy = some c →
        convertInput P nid idx s0
          = .ok (ConvState.mk (setInput s0.fn nid idx (NodeValue.mk c 0))
              s0.conversions_ s0.morphed)) := by
  constructor
  · rw [convert] at hok
    have hl : ∀ y ∈ f.nodes.map Node.id, y < f.nextId := by
      intro y hy
      obtain ⟨m, hm, he⟩ := List.mem_map.1 hy
      exact he ▸ hwf.ids_lt m hm
    have hpres : ∀ y ∈ f.nodes.map Node.id, (lookupN f.nodes y).isSome := by
      intro y hy
      obtain ⟨m, hm, he⟩ := List.mem_map.1 hy
      rw [← he, lookupN_of_mem hwf.ids_nodup hm]
      rfl
    obtain ⟨hinv, -, -, -, -, -⟩ :=
      nodesLoop_facts (Inv.init hwf) hl hpres hwf.ids_nodup hok
    exact hinv.cache_keys
  · intro s0 nid idx n v curTy destTy c hg hi hv ht hne hfc
    exact convertInput_eq_hit hg hi hv ht hne hfc

/-- Witness for C3 on the dedup example: the final cache [3] has pairwise
distinct keys. -/
theorem c3_conversion_dedup_witness :
    exDedup_res.conversions_.Pairwise (fun c d =>
      ¬(convSrc exDedup_res.fn c = convSrc exDedup_res.fn d ∧
        convDst exDedup_res.fn c = convDst exDedup_res.fn d)) :=
  (c3_conversion_dedup (P := exDedup_pol) (f := exDedup_fn) (s := exDedup_res)
    ⟨by decide, by decide, by decide⟩ rfl).1

/-- C7: `convert` drives the pass from a snapshot of the node identities taken
before any mutation: the nodes on which `morphNode` / `postProcessing` run are
exactly the eligible members of that snapshot in their original order, and no
conversion node inserted during the pass (a member of the cache) is ever one
of them - conversion nodes are never revisited as primary targets. -/
theorem c7_snapshot_isolation {P : FunctionConverter} {f : Function} {s : ConvState}
    (hwf : WFF f) (hok : convert P f = .ok s) :
    s.morphed = (f.nodes.map Node.id).filter (fun x => P.canConvert x)
    ∧ (∀ c ∈ s.conversions_, c ∉ f.nodes.map Node.id) := by
  rw [convert] at hok
  have hl : ∀ y ∈ f.nodes.map Node.id, y < f.nextId := by
    intro y hy
    obtain ⟨m, hm, he⟩ := List.mem_map.1 hy
    exact he ▸ hwf.ids_lt m hm
  have hpres : ∀ y ∈ f.nodes.map Node.id, (lookupN f.nodes y).isSome := by
    intro y hy
    obtain ⟨m, hm, he⟩ := List.mem_map.1 hy
    rw [← he, lookupN_of_mem hwf.ids_nodup hm]
    rfl
  obtain ⟨hinv, -, hmor, -, -, -⟩ :=
    nodesLoop_facts (Inv.init hwf) hl hpres hwf.ids_nodup hok
  refine ⟨by rw [hmor]; simp, ?_⟩
  intro c hc hmem
  exact absurd (hl c hmem) (Nat.not_lt_of_le (hinv.cache_bounds hc).1)

/-- Witness for C7 on the dedup example: the visit trace is the snapshot and
the inserted conversion 3 is not a snapshot member. -/
theorem c7_snapshot_isolation_witness :
    exDedup_res.morphed
        = (exDedup_fn.nodes.map Node.id).filter (fun x => exDedup_pol.canConvert x)
    ∧ (∀ c ∈ exDedup_res.conversions_, c ∉ exDedup_fn.nodes.map Node.id) :=
  c7_snapshot_isolation (P := exDedup_pol) (f := exDedup_fn) (s := exDedup_res)
    ⟨by decide, by decide, by decide⟩ rfl

/-- C9: the `conversions_` member is reset at the start of each fresh
invocation - a run on a converter holding stale conversions from an earlier
run equals the run from an empty cache - and after a successful run the cache
lists exactly the conversion identities created by that invocation, in
creation order (the consecutive fresh identities this run consumed). -/
theorem c9_cache_reset {P : FunctionConverter} {f : Function}
    (stale : List NodeId) {s : ConvState} :
    convertFrom P f stale = convert P f
    ∧ (WFF f → convert P f = .ok s →
        s.conversions_ = List.range' f.nextId (s.fn.nextId - f.nextId)) := by
  refine ⟨rfl, fun hwf hok => ?_⟩
  rw [convert] at hok
  have hl : ∀ y ∈ f.nodes.map Node.id, y < f.nextId := by
    intro y hy
    obtain ⟨m, hm, he⟩ := List.mem_map.1 hy
    exact he ▸ hwf.ids_lt m hm
  have hpres : ∀ y ∈ f.nodes.map Node.id, (lookupN f.nodes y).isSome := by
    intro y hy
    obtain ⟨m, hm, he⟩ := List.mem_map.1 hy
    rw [← he, lookupN_of_mem hwf.ids_nodup hm]
    rfl
  obtain ⟨hinv, -, -, -, -, -⟩ :=
    nodesLoop_facts (Inv.init hwf) hl hpres hwf.ids_nodup hok
  exact hinv.cache_range

/-- Witness for C9 on the dedup example: a stale cache [99] is ignored, and
the fresh run records exactly the one identity it consumed. -/
theorem c9_cache_reset_witness :
    convertFrom exDedup_pol exDedup_fn [99] = convert exDedup_pol exDedup_fn
    ∧ exDedup_res.conversions_ = List.range' 3 (4 - 3) := by
  have h := c9_cache_reset (P := exDedup_pol) (f := exDedup_fn) [99]
    (s := exDedup_res)
  exact ⟨h.1, h.2 ⟨by decide, by decide, by decide⟩ rfl⟩

/-- C10: the default `getConversionOutput` is well defined exactly when the
node has at least one result; and after a successful `convert` on a
well-formed graph, every conversion node recorded in the cache has exactly
one input and one result whose source value has a defined type, so the
out-of-bounds branch of the default `getConversionOutput` /
`getConversionType` hooks is unreachable on every conversion the pass
created. -/
theorem c10_default_hooks_defined {P : FunctionConverter} {f : Function} {s : ConvState}
    (hwf : WFF f) (hok : convert P f = .ok s) :
    (∀ conversion : Node, 0 < conversion.outTypes.length →
      (getConversionOutput conversion).isSome)
    ∧ (∀ c ∈ s.conversions_, ∃ cn, getNode s.fn c = some cn ∧
        cn.inputs.length = 1 ∧ cn.outTypes.length = 1 ∧
        (getConversionOutput cn).isSome ∧ (getConversionType s.fn cn).isSome) := by
  constructor
  · intro conversion hlen
    rw [getConversionOutput]
    obtain ⟨ty, hty⟩ : ∃ ty, conversion.outTypes[0]? = some ty := by
      cases hget : conversion.outTypes[0]? with
      | none =>
        rw [List.getElem?_eq_none_iff] at hget
        exact absurd hlen (Nat.not_lt_of_le hget)
      | some ty => exact ⟨ty, rfl⟩
    rw [hty]
    rfl
  · rw [convert] at hok
    have hl : ∀ y ∈ f.nodes.map Node.id, y < f.nextId := by
      intro y hy
      obtain ⟨m, hm, he⟩ := List.mem_map.1 hy
      exact he ▸ hwf.ids_lt m hm
    have hpres : ∀ y ∈ f.nodes.map Node.id, (lookupN f.nodes y).isSome := by
      intro y hy
      obtain ⟨m, hm, he⟩ := List.mem_map.1 hy
      rw [← he, lookupN_of_mem hwf.ids_nodup hm]
      rfl
    obtain ⟨hinv, -, -, -, -, -⟩ :=
      nodesLoop_facts (Inv.init hwf) hl hpres hwf.ids_nodup hok
    intro c hc
    obtain ⟨srcv, dstTy, srcTy, hlk, hty, -⟩ := hinv.cache_conv c hc
    refine ⟨Node.mk c [srcv] [dstTy], hlk, rfl, rfl, rfl, ?_⟩
    rw [getConversionType]
    have h2 : (([srcv] : List NodeValue)[0]?).bind (typeOf s.fn) = some srcTy := by
      simpa using hty
    simp only [h2]
    rfl

/-- Witness for C10 on the dedup example: the single cached conversion has
both default hooks defined. -/
theorem c10_default_hooks_defined_witness :
    ∃ cn, getNode exDedup_res.fn 3 = some cn ∧
      cn.inputs.length = 1 ∧ cn.outTypes.length = 1 ∧
      (getConversionOutput cn).isSome ∧ (getConversionType exDedup_res.fn cn).isSome :=
  (c10_default_hooks_defined (P := exDedup_pol) (f := exDedup_fn) (s := exDedup_res)
    ⟨by decide, by decide, by decide⟩ rfl).2 3 (by decide)


/-- C5 counterexample: the claim "a node for which canConvert returns false
has identical inputs before and after the pass" fails on the concrete graph
`exSkip_fn`: node 1 is ineligible, yet after `convert` its input edge no
longer references (0,0) - it was redirected to the conversion node 2 inserted
when the eligible producer's output was mutated. -/
theorem c5_ineligible_bypass_counterexample :
    exSkip_pol.canConvert 1 = false
    ∧ convert exSkip_pol exSkip_fn = .ok exSkip_res
    ∧ inputOf exSkip_fn 1 0 = some (NodeValue.mk 0 0)
    ∧ inputOf exSkip_res.fn 1 0 = some (NodeValue.mk 2 0)
    ∧ inputOf exSkip_res.fn 1 0 ≠ inputOf exSkip_fn 1 0 :=
  ⟨rfl, rfl, rfl, rfl, by decide⟩

/-- C5 amended: a node `x` of the original well-formed graph for which
`canConvert` returns false is never visited - `morphNode` / `postProcessing`
are not invoked on it, no conversion is requested for its slots, and all of
its input-slot types and output-slot types are unchanged; however its input
edges may still be rewired (type-preservingly) to a conversion node when an
eligible producer's output type is mutated, so its inputs need not be
syntactically identical. -/
theorem c5_ineligible_bypass_amended {P : FunctionConverter} {f : Function}
    {s : ConvState} {x : NodeId} {n : Node} (hwf : WFF f)
    (hok : convert P f = .ok s) (hx : lookupN f.nodes x = some n)
    (hcan : P.canConvert x = false) :
    x ∉ s.morphed
    ∧ (∀ j, inTypeOf s.fn x j = inTypeOf f x j)
    ∧ (∀ o, outTypeOf s.fn x o = outTypeOf f x o) := by
  rw [convert] at hok
  have hl : ∀ y ∈ f.nodes.map Node.id, y < f.nextId := by
    intro y hy
    obtain ⟨m, hm, he⟩ := List.mem_map.1 hy
    exact he ▸ hwf.ids_lt m hm
  have hpres : ∀ y ∈ f.nodes.map Node.id, (lookupN f.nodes y).isSome := by
    intro y hy
    obtain ⟨m, hm, he⟩ := List.mem_map.1 hy
    rw [← he, lookupN_of_mem hwf.ids_nodup hm]
    rfl
  obtain ⟨-, -, hmor, hpresIn, hpresOut, -⟩ :=
    nodesLoop_facts (Inv.init hwf) hl hpres hwf.ids_nodup hok
  have hxlt : x < f.nextId := lookupN_id hx ▸ hwf.ids_lt n (lookupN_mem hx)
  refine ⟨?_, fun j => hpresIn x j hxlt (Or.inr hcan),
    fun o => hpresOut x o hxlt (Or.inr hcan)⟩
  intro hmem
  rw [hmor] at hmem
  simp only [List.nil_append] at hmem
  have := (List.mem_filter.1 hmem).2
  rw [hcan] at this
  exact absurd this (by simp)

/-- Witness for the amended C5 at the concrete skip scenario: the ineligible
node 1 is unvisited and keeps all its slot types. -/
theorem c5_ineligible_bypass_amended_witness :
    1 ∉ exSkip_res.morphed
    ∧ (∀ j, inTypeOf exSkip_res.fn 1 j = inTypeOf exSkip_fn 1 j)
    ∧ (∀ o, outTypeOf exSkip_res.fn 1 o = outTypeOf exSkip_fn 1 o) :=
  c5_ineligible_bypass_amended (P := exSkip_pol) (f := exSkip_fn) (s := exSkip_res)
    (x := 1) (n := Node.mk 1 [NodeValue.mk 0 0] [7])
    ⟨by decide, by decide, by decide⟩ rfl rfl rfl

/-- C6 counterexample: the claim "a hook returning the absent sentinel leaves
the edge at that slot unchanged" fails on `exSkip_fn` with every node
eligible: the input hook returns absent for slot (1,0) at every type, yet
after `convert` the edge at that slot was redirected to the conversion node
inserted for the producer's output mutation. -/
theorem c6_absent_hook_counterexample :
    (∀ t, exEdge_pol.getTargetTypeForInput 1 0 t = none)
    ∧ convert exEdge_pol exSkip_fn = .ok exEdge_res
    ∧ inputOf exEdge_res.fn 1 0 ≠ inputOf exSkip_fn 1 0 :=
  ⟨fun t => rfl, rfl, by decide⟩

/-- C6 amended: when the applicable target-type hook returns the absent
sentinel or a type equal to the slot's current type, the conversion step for
that individual slot is a no-op - it creates no conversion node, mutates no
type, and rewires nothing (the edge can still be redirected later by the
output-conversion step of the producing node, which preserves the slot's
type). -/
theorem c6_no_conversion_when_absent_or_equal (P : FunctionConverter) (s : ConvState)
    (nid : NodeId) (idx o : Nat) (curTy outTy : Ty) :
    (inTypeOf s.fn nid idx = some curTy →
      (P.getTargetTypeForInput nid idx curTy = none ∨
        P.getTargetTypeForInput nid idx curTy = some curTy) →
      convertInput P nid idx s = .ok s)
    ∧ (outTypeOf s.fn nid o = some outTy →
      (P.getTargetTypeForOutput (NodeValue.mk nid o) outTy = none ∨
        P.getTargetTypeForOutput (NodeValue.mk nid o) outTy = some outTy) →
      convertOutput P nid o s = .ok s) := by
  constructor
  · intro hti hhook
    rw [inTypeOf] at hti
    obtain ⟨v, hio, htv⟩ := Option.bind_eq_some.1 hti
    rw [inputOf] at hio
    obtain ⟨n, hg, hi⟩ := Option.bind_eq_some.1 hio
    rcases hhook with hnone | heq
    · exact convertInput_eq_noTarget hg hi htv hnone
    · exact convertInput_eq_sameType hg hi htv heq
  · intro hto hhook
    rw [outTypeOf] at hto
    obtain ⟨n, hg, ho⟩ := Option.bind_eq_some.1 hto
    rcases hhook with hnone | heq
    · exact convertOutput_eq_noTarget hg ho hnone
    · exact convertOutput_eq_sameType hg ho heq

/-- Witness for the amended C6: with the all-absent policy, the
input-conversion step on slot (1,0) leaves the state untouched. -/
theorem c6_no_conversion_when_absent_or_equal_witness :
    convertInput exQuiet_pol 1 0 (ConvState.mk exDedup_fn [] [])
      = .ok (ConvState.mk exDedup_fn [] []) :=
  (c6_no_conversion_when_absent_or_equal exQuiet_pol
    (ConvState.mk exDedup_fn [] []) 1 0 0 5 7).1 (by decide) (Or.inl rfl)

/-- C8: a hard `createConversion` failure aborts the pass at that point: if
processing a prefix of the snapshot ends in the error state `e`, processing
the whole snapshot yields exactly that error - no later snapshot node is
processed and nothing is rolled back (the failure state, including the
already-mutated output type, is surfaced as is). -/
theorem c8_abort_on_failure (P : FunctionConverter) (l1 l2 : List NodeId)
    (s e : ConvState) (h : runSteps (convertNode P) l1 s = .error e) :
    runSteps (convertNode P) (l1 ++ l2) s = .error e := by
  rw [runSteps_append, h]

/-- Witness for C8: the failing policy aborts on node 0 with the output type
already mutated, and nodes 1, 2 are never processed. -/
theorem c8_abort_on_failure_witness :
    runSteps (convertNode exFail_pol) ([0] ++ [1, 2]) (ConvState.mk exOut_fn [] [])
      = .error exFail_err :=
  c8_abort_on_failure exFail_pol [0] [1, 2] (ConvState.mk exOut_fn [] []) exFail_err rfl


theorem map_decomp {α β : Type} (g : α → β) {L l1 l2 : List α} {a b : α}
    (h : L = l1 ++ a :: b :: l2) :
    L.map g = l1.map g ++ g a :: g b :: l2.map g := by
  rw [h]
  simp

/-- C2: on a well-formed graph, for a node N with exactly one output of type
T consumed by two existing consumers, when the output hook requests T2 with
T2 different from T (and no other hook fires in the scenario), after a run of
`convert`: N's output slot has type T2 (mutated in place), exactly one
conversion node - from the now-retyped value back to T - is created and
inserted immediately after N, and both consumers reference that conversion's
output instead of N's output. -/
theorem c2_output_mutation (P : FunctionConverter) (f : Function) (N c1 c2 : Node)
    (T T2 : Ty)
    (hwf : WFF f) (hN : N ∈ f.nodes) (hout1 : N.outTypes = [T])
    (hcan : P.canConvert N.id = true)
    (hreq : P.getTargetTypeForOutput (NodeValue.mk N.id 0) T = some T2)
    (hneq : T2 ≠ T)
    (hcok : P.createConversionOk (NodeValue.mk N.id 0) T = true)
    (hinq : ∀ x j t, P.getTargetTypeForInput x j t = none)
    (houtq : ∀ w t, w ≠ NodeValue.mk N.id 0 → P.getTargetTypeForOutput w t = none)
    (hc1 : c1 ∈ f.nodes) (hc2 : c2 ∈ f.nodes)
    (hc1N : c1.id ≠ N.id) (hc2N : c2.id ≠ N.id)
    (hc1in : NodeValue.mk N.id 0 ∈ c1.inputs) (hc2in : NodeValue.mk N.id 0 ∈ c2.inputs) :
    ∃ s, convert P f = .ok s
      ∧ s.conversions_ = [f.nextId]
      ∧ outTypeOf s.fn N.id 0 = some T2
      ∧ getNode s.fn f.nextId = some (mkConversion f.nextId (NodeValue.mk N.id 0) T)
      ∧ (∃ l1 l2 m, s.fn.nodes
            = l1 ++ m :: mkConversion f.nextId (NodeValue.mk N.id 0) T :: l2
          ∧ m.id = N.id ∧ m.outTypes = [T2])
      ∧ (∀ y ∈ [c1.id, c2.id], ∃ my, getNode s.fn y = some my
          ∧ NodeValue.mk f.nextId 0 ∈ my.inputs
          ∧ NodeValue.mk N.id 0 ∉ my.inputs) := by
  obtain ⟨ln1, ln2, hsplit⟩ := List.append_of_mem hN
  have hNlt : N.id < f.nextId := hwf.ids_lt N hN
  have hlkN : lookupN f.nodes N.id = some N := lookupN_of_mem hwf.ids_nodup hN
  have hsnap : f.nodes.map Node.id = ln1.map Node.id ++ N.id :: ln2.map Node.id := by
    rw [hsplit]
    simp
  have hnd2 := hwf.ids_nodup
  rw [hsnap, List.nodup_append] at hnd2
  obtain ⟨hnd1, hndr, hdisj⟩ := hnd2
  have hx1 : ∀ x ∈ ln1.map Node.id, x ≠ N.id := by
    intro x hx he
    subst he
    exact hdisj hx (List.mem_cons_self _ _)
  have hx2 : ∀ x ∈ ln2.map Node.id, x ≠ N.id := by
    intro x hx he
    subst he
    exact absurd hx (List.nodup_cons.1 hndr).1
  have hquiet : ∀ x : NodeId, x ≠ N.id →
      (∀ idx t, P.getTargetTypeForInput x idx t = none) ∧
      (∀ o t, P.getTargetTypeForOutput (NodeValue.mk x o) t = none) := by
    intro x hxn
    refine ⟨fun idx t => hinq x idx t, fun o t => houtq _ t ?_⟩
    intro he
    exact hxn (congrArg NodeValue.node he)
  -- the quiet prefix
  obtain ⟨m1, hm1⟩ := nodesLoop_quiet (P := P) (l := ln1.map Node.id)
    (s := ConvState.mk f [] []) (fun x hx => hquiet x (hx1 x hx))
  -- the active visit of N
  have hinv1 : Inv f (ConvState.mk f [] m1) := (Inv.init hwf).morphed_irrel m1
  have hgN : getNode f N.id = some N := hlkN
  have hoN : N.outTypes[0]? = some T := by
    rw [hout1]
    rfl
  have hfcN : findInCache (setOutType f N.id 0 T2) ([] : List NodeId)
      (NodeValue.mk N.id 0) T = none := rfl
  have hstepN := convertOutput_eq_create (P := P) (s := ConvState.mk f [] m1)
    hgN hoN hreq hneq hfcN hcok
  have hnodeN : convertNode P N.id (ConvState.mk f [] m1)
      = .ok (ConvState.mk (outputCreateState (ConvState.mk f [] m1) N.id 0 T T2).fn
          (outputCreateState (ConvState.mk f [] m1) N.id 0 T T2).conversions_
          ((outputCreateState (ConvState.mk f [] m1) N.id 0 T T2).morphed ++ [N.id])) := by
    rw [convertNode, hcan]
    simp only [if_true, hgN,
      runSteps_id (fun i s1 => convertInput_quiet (hinq N.id i)), hout1]
    show (match runSteps (convertOutput P N.id) [0] (ConvState.mk f [] m1) with
      | Except.error e => Except.error e
      | Except.ok s2 => Except.ok (ConvState.mk s2.fn s2.conversions_ (s2.morphed ++ [N.id])))
      = _
    rw [runSteps_cons, hstepN]
    rfl
  -- the quiet suffix
  obtain ⟨m2, hm2⟩ := nodesLoop_quiet (P := P) (l := ln2.map Node.id)
    (s := ConvState.mk (outputCreateState (ConvState.mk f [] m1) N.id 0 T T2).fn
      (outputCreateState (ConvState.mk f [] m1) N.id 0 T T2).conversions_
      ((outputCreateState (ConvState.mk f [] m1) N.id 0 T T2).morphed ++ [N.id]))
    (fun x hx => hquiet x (hx2 x hx))
  refine ⟨ConvState.mk (outputCreateState (ConvState.mk f [] m1) N.id 0 T T2).fn
    (outputCreateState (ConvState.mk f [] m1) N.id 0 T T2).conversions_ m2, ?_, rfl, ?_, ?_, ?_, ?_⟩
  · rw [convert, hsnap, runSteps_append]
    simp only [hm1]
    rw [runSteps_cons]
    simp only [hnodeN]
    exact hm2
  · exact outputCreate_outTypeOf_self hinv1 hNlt hgN hoN
  · exact outputCreate_convNode hinv1 (Nat.lt_of_lt_of_le hNlt hinv1.base_le)
  · -- the conversion sits immediately after N
    have hlkN1 : lookupN (setOutType f N.id 0 T2).nodes N.id
        = some (Node.mk N.id N.inputs (N.outTypes.set 0 T2)) := by
      show getNode (setOutType f N.id 0 T2) N.id = _
      rw [getNode_setOutType_self, getNode, hlkN]
      rfl
    obtain ⟨l1, l2, hdec1, hdec2⟩ := insertAfterList_decomp hlkN1
      (mkConversion f.nextId (NodeValue.mk N.id 0) T)
    have hcidus : f.nextId ∉ usersOf f (NodeValue.mk N.id 0) := by
      intro hmem
      obtain ⟨m, hm, he⟩ := usersOf_sub hmem
      exact absurd (he ▸ hwf.ids_lt m hm) (Nat.lt_irrefl _)
    have hshow : (outputCreateState (ConvState.mk f [] m1) N.id 0 T T2).fn.nodes
        = (insertAfterList N.id (mkConversion f.nextId (NodeValue.mk N.id 0) T)
            (setOutType f N.id 0 T2).nodes).map (fun n =>
          if n.id ∈ usersOf f (NodeValue.mk N.id 0) then
            Node.mk n.id (n.inputs.map fun w =>
              if w = NodeValue.mk N.id 0 then NodeValue.mk f.nextId 0 else w) n.outTypes
          else n) := rfl
    refine ⟨l1.map (fun n =>
        if n.id ∈ usersOf f (NodeValue.mk N.id 0) then
          Node.mk n.id (n.inputs.map fun w =>
            if w = NodeValue.mk N.id 0 then NodeValue.mk f.nextId 0 else w) n.outTypes
        else n),
      l2.map (fun n =>
        if n.id ∈ usersOf f (NodeValue.mk N.id 0) then
          Node.mk n.id (n.inputs.map fun w =>
            if w = NodeValue.mk N.id 0 then NodeValue.mk f.nextId 0 else w) n.outTypes
        else n),
      (fun n =>
        if n.id ∈ usersOf f (NodeValue.mk N.id 0) then
          Node.mk n.id (n.inputs.map fun w =>
            if w = NodeValue.mk N.id 0 then NodeValue.mk f.nextId 0 else w) n.outTypes
        else n) (Node.mk N.id N.inputs (N.outTypes.set 0 T2)), ?_, ?_, ?_⟩
    · rw [hshow, map_decomp _ hdec2]
      have hcN : (if (mkConversion f.nextId (NodeValue.mk N.id 0) T).id
            ∈ usersOf f (NodeValue.mk N.id 0) then
          Node.mk (mkConversion f.nextId (NodeValue.mk N.id 0) T).id
            ((mkConversion f.nextId (NodeValue.mk N.id 0) T).inputs.map fun w =>
              if w = NodeValue.mk N.id 0 then NodeValue.mk f.nextId 0 else w)
            (mkConversion f.nextId (NodeValue.mk N.id 0) T).outTypes
          else mkConversion f.nextId (NodeValue.mk N.id 0) T)
          = mkConversion f.nextId (NodeValue.mk N.id 0) T := by
        simp only [mkConversion]
        rw [if_neg hcidus]
      rw [hcN]
    · simp only []
      split
      · rfl
      · rfl
    · simp only []
      split
      · show N.outTypes.set 0 T2 = [T2]
        rw [hout1]
        rfl
      · show N.outTypes.set 0 T2 = [T2]
        rw [hout1]
        rfl
  · -- both consumers now reference the conversion's output
    have hcons : ∀ cy : Node, cy ∈ f.nodes → cy.id ≠ N.id →
        NodeValue.mk N.id 0 ∈ cy.inputs →
        ∃ my, getNode (outputCreateState (ConvState.mk f [] m1) N.id 0 T T2).fn cy.id
            = some my
          ∧ NodeValue.mk f.nextId 0 ∈ my.inputs
          ∧ NodeValue.mk N.id 0 ∉ my.inputs := by
      intro cy hmem hcyN hvin
      have hcyus : cy.id ∈ usersOf f (NodeValue.mk N.id 0) :=
        mem_usersOf.2 ⟨cy, hmem, rfl, hvin⟩
      have hcylt : cy.id < f.nextId := hwf.ids_lt cy hmem
      have hlkcy : getNode (insertNodeAfter (setOutType f N.id 0 T2) N.id
          (mkConversion f.nextId (NodeValue.mk N.id 0) T)) cy.id = some cy := by
        rw [getNode_insertNodeAfter_ne (Nat.ne_of_lt hcylt), getNode_setOutType_ne hcyN,
          getNode, lookupN_of_mem hwf.ids_nodup hmem]
      refine ⟨Node.mk cy.id (cy.inputs.map fun w =>
          if w = NodeValue.mk N.id 0 then NodeValue.mk f.nextId 0 else w) cy.outTypes,
        ?_, ?_, ?_⟩
      · show getNode (redirectListed _ _ _ _) _ = _
        rw [getNode_redirectListed_mem hcyus, hlkcy]
        rfl
      · refine List.mem_map.2 ⟨NodeValue.mk N.id 0, hvin, ?_⟩
        rw [if_pos rfl]
      · intro hmem2
        obtain ⟨w, hw, he⟩ := List.mem_map.1 hmem2
        by_cases hwv : w = NodeValue.mk N.id 0
        · rw [if_pos hwv] at he
          have := congrArg NodeValue.node he
          exact absurd this.symm (Nat.ne_of_lt hNlt)
        · rw [if_neg hwv] at he
          exact hwv he
    intro y hy
    rcases List.mem_cons.1 hy with rfl | hy2
    · exact hcons c1 hc1 hc1N hc1in
    · rcases List.mem_cons.1 hy2 with rfl | hy3
      · exact hcons c2 hc2 hc2N hc2in
      · exact absurd hy3 (List.not_mem_nil y)


/-- Witness for C2 at the concrete output-mutation scenario: node 0's output
(type 5) is requested as type 6; after the run node 0 produces type 6, the
single conversion node 3 back to type 5 sits immediately after it, and both
consumers 1 and 2 read from the conversion. -/
theorem c2_output_mutation_witness :
    ∃ s, convert exOut_pol exOut_fn = .ok s
      ∧ s.conversions_ = [3]
      ∧ outTypeOf s.fn 0 0 = some 6
      ∧ getNode s.fn 3 = some (mkConversion 3 (NodeValue.mk 0 0) 5)
      ∧ (∃ l1 l2 m, s.fn.nodes = l1 ++ m :: mkConversion 3 (NodeValue.mk 0 0) 5 :: l2
          ∧ m.id = 0 ∧ m.outTypes = [6])
      ∧ (∀ y ∈ [1, 2], ∃ my, getNode s.fn y = some my
          ∧ NodeValue.mk 3 0 ∈ my.inputs
          ∧ NodeValue.mk 0 0 ∉ my.inputs) := by
  have houtq : ∀ w t, w ≠ NodeValue.mk 0 0 →
      exOut_pol.getTargetTypeForOutput w t = none := by
    intro w t hw
    show (if w = NodeValue.mk 0 0 then some 6 else none) = none
    rw [if_neg hw]
  exact c2_output_mutation exOut_pol exOut_fn (Node.mk 0 [] [5])
    (Node.mk 1 [NodeValue.mk 0 0] [9]) (Node.mk 2 [NodeValue.mk 0 0] [9]) 5 6
    ⟨by decide, by decide, by decide⟩ (by decide) rfl rfl rfl (by decide) rfl
    (fun x j t => rfl) houtq (by decide) (by decide) (by decide) (by decide)
    (by decide) (by decide)


end Glow
